import Mathlib

/-!
Verification development for the devframework repository.

The definitions below are shallow embeddings of the Python sources:
  * framework/orchestrator/orchestrator.py  (task normalization, task
    selection, the scheduler loop, run summary and process exit code),
  * framework/tools/interactive-runner.py   (pause-command scanning and
    the runner exit code),
  * framework/tools/protocol-watch.py       (the stall check of the
    watchdog loop).

Python dynamic values are modelled by the inductive type `PyVal`; machine
integers are `Int` (Python ints are unbounded, so no wrap-around is
modelled); fallible code returns `Except String`.
-/

/-- A Python value, as far as the orchestrator configuration code
inspects values: None, bool, int, str, list, dict with string keys.
(Python also has floats and other objects; the configuration code under
analysis only distinguishes the shapes modelled here.) -/
inductive PyVal where
  | pyNone
  | pyBool (b : Bool)
  | pyInt (n : Int)
  | pyStr (s : String)
  | pyList (xs : List PyVal)
  | pyDict (kvs : List (String × PyVal))
deriving Repr

mutual
/-- Structural equality of `PyVal`, the embedding of the `==` used by
Python dict-membership tests in `normalize_tasks`.  (Python's numeric
cross-type equality such as `True == 1` is not modelled; task names and
dependency names in this code are compared as plain values.) -/
def pyBeq : PyVal → PyVal → Bool
  | .pyNone, .pyNone => true
  | .pyBool a, .pyBool b => a == b
  | .pyInt a, .pyInt b => a == b
  | .pyStr a, .pyStr b => a == b
  | .pyList xs, .pyList ys => pyBeqArr xs ys
  | .pyDict xs, .pyDict ys => pyBeqObj xs ys
  | _, _ => false
def pyBeqArr : List PyVal → List PyVal → Bool
  | [], [] => true
  | x :: xs, y :: ys => pyBeq x y && pyBeqArr xs ys
  | _, _ => false
def pyBeqObj : List (String × PyVal) → List (String × PyVal) → Bool
  | [], [] => true
  | (k, v) :: xs, (k2, v2) :: ys => k == k2 && pyBeq v v2 && pyBeqObj xs ys
  | _, _ => false
end

/-- Python truthiness (`if not name:`): None, False, 0, empty string,
empty list and empty dict are falsy. -/
def pyTruthy : PyVal → Bool
  | .pyNone => false
  | .pyBool b => b
  | .pyInt n => n != 0
  | .pyStr s => !s.isEmpty
  | .pyList xs => !xs.isEmpty
  | .pyDict kvs => !kvs.isEmpty

/-- A Python dict with string keys, as an association list in insertion
order (keys are unique in any dict the embedded code builds). -/
abbrev PyDictL := List (String × PyVal)

/-- `d.get(k)` / `d[k]` on a string-keyed dict: first binding wins. -/
def dictGet : PyDictL → String → Option PyVal
  | [], _ => none
  | (k, v) :: rest, key => if k == key then some v else dictGet rest key

/-- `k in d` for a string key. -/
def dictHas (kvs : PyDictL) (key : String) : Bool :=
  kvs.any (fun p => p.1 == key)

/-- Replace the value at a key, keeping its position. -/
def dictOverwrite : PyDictL → String → PyVal → PyDictL
  | [], _, _ => []
  | (k2, v2) :: rest, key, v =>
    if k2 == key then (key, v) :: dictOverwrite rest key v
    else (k2, v2) :: dictOverwrite rest key v

/-- `d[k] = v`: overwrite in place if the key exists (keeping its
position, as Python dicts do), otherwise append. -/
def dictSet (kvs : PyDictL) (key : String) (v : PyVal) : PyDictL :=
  if dictHas kvs key then dictOverwrite kvs key v
  else kvs ++ [(key, v)]

/-- `d.setdefault(k, v)`. -/
def dictSetDefault (kvs : PyDictL) (key : String) (v : PyVal) : PyDictL :=
  if dictHas kvs key then kvs else kvs ++ [(key, v)]

/-- Membership of a value in a list of values, via `pyBeq`. -/
def pyMem (x : PyVal) (l : List PyVal) : Bool :=
  l.any (fun y => pyBeq x y)

/-- The fixed phase enumeration of `normalize_tasks`. -/
def phaseEnum : List PyVal :=
  [.pyStr "discovery", .pyStr "main", .pyStr "post", .pyStr "legacy"]

/-- One step of the first loop of `normalize_tasks`
(orchestrator.py lines 216-239): validate one raw task entry against the
names seen so far and produce the (mutated) task dict keyed by its name.
Error messages are abbreviated; only success/failure and the produced
dict matter to the development. -/
def normalizeEntry (byName : List (PyVal × PyDictL)) (task : PyVal) :
    Except String (PyVal × PyDictL) :=
  match task with
  | .pyDict kvs =>
    let name := (dictGet kvs "name").getD .pyNone
    if !pyTruthy name then
      .error "Each task must have a non-empty name"
    else if byName.any (fun p => pyBeq name p.1) then
      .error "Duplicate task name"
    else if !dictHas kvs "worktree" then
      .error "Task missing required field worktree"
    else if !dictHas kvs "prompt" then
      .error "Task missing required field prompt"
    else
      let kvs1 := dictSetDefault kvs "depends_on" (.pyList [])
      match dictGet kvs1 "depends_on" with
      | some (.pyList _) =>
        let phase := (dictGet kvs1 "phase").getD (.pyStr "main")
        if !pyMem phase phaseEnum then
          .error "Task has invalid phase"
        else
          let kvs2 := dictSet kvs1 "phase" phase
          match dictGet kvs2 "manual" with
          | some (.pyBool b) =>
            .ok (name, dictSet kvs2 "manual" (.pyBool b))
          | some _ =>
            .error "Task field manual must be boolean"
          | none =>
            .ok (name, dictSet kvs2 "manual" (.pyBool false))
      | _ =>
        .error "Task field depends_on must be a list"
  | _ => .error "Each task must be a mapping"

/-- The first loop of `normalize_tasks` over all entries, accumulating
`ordered` and `tasks_by_name` in insertion order. -/
def normGo : List PyVal → List (PyVal × PyDictL) → List PyDictL →
    Except String (List PyDictL × List (PyVal × PyDictL))
  | [], byName, ordered => .ok (ordered, byName)
  | t :: ts, byName, ordered =>
    match normalizeEntry byName t with
    | .error e => .error e
    | .ok (name, task) => normGo ts (byName ++ [(name, task)]) (ordered ++ [task])

/-- The dependency list of a normalized task dict (its `depends_on`
value, guaranteed to be a list by construction). -/
def dictDeps (task : PyDictL) : List PyVal :=
  match dictGet task "depends_on" with
  | some (.pyList ds) => ds
  | _ => []

/-- The second loop of `normalize_tasks` (lines 240-243): every
dependency of every task must name a task of the configuration. -/
def depCheck (byName : List (PyVal × PyDictL)) :
    List (PyVal × PyDictL) → Except String Unit
  | [] => .ok ()
  | (_, task) :: rest =>
    if (dictDeps task).any (fun d => !(byName.any (fun p => pyBeq d p.1))) then
      .error "Task depends on unknown task"
    else
      depCheck byName rest

/-- `normalize_tasks(tasks)` (orchestrator.py lines 211-244): reject
non-list input, validate every entry in order, then check that all
dependencies name known tasks; return the ordered task dicts and the
name-keyed map. -/
def normalize_tasks (v : PyVal) :
    Except String (List PyDictL × List (PyVal × PyDictL)) :=
  match v with
  | .pyList ts =>
    match normGo ts [] [] with
    | .error e => .error e
    | .ok (ordered, byName) =>
      match depCheck byName byName with
      | .error e => .error e
      | .ok _ => .ok (ordered, byName)
  | _ => .error "Config tasks must be a list"

/-- The raw name value of a task entry (None when the entry is not a
mapping or has no name key), matching `task.get("name")`. -/
def entryName (t : PyVal) : PyVal :=
  match t with
  | .pyDict kvs => (dictGet kvs "name").getD .pyNone
  | _ => .pyNone

/-- The raw dependency values of a task entry (empty when absent or not
a list). -/
def entryDeps (t : PyVal) : List PyVal :=
  match t with
  | .pyDict kvs =>
    match dictGet kvs "depends_on" with
    | some (.pyList ds) => ds
    | _ => []
  | _ => []

/-- A raw task entry is shape-valid when it is a mapping with a truthy
name, has `worktree` and `prompt` keys, a list-typed `depends_on` (if
present), a phase from the fixed enumeration (if present) and a boolean
`manual` flag (if present).  These are exactly the per-entry checks of
`normalize_tasks`. -/
def validEntry (t : PyVal) : Bool :=
  match t with
  | .pyDict kvs =>
    pyTruthy ((dictGet kvs "name").getD .pyNone) &&
    dictHas kvs "worktree" && dictHas kvs "prompt" &&
    (match dictGet kvs "depends_on" with
     | none => true
     | some (.pyList _) => true
     | some _ => false) &&
    (match dictGet kvs "phase" with
     | none => true
     | some p => pyMem p phaseEnum) &&
    (match dictGet kvs "manual" with
     | none => true
     | some (.pyBool _) => true
     | some _ => false)
  | _ => false

/-- Pairwise distinctness of name values under `pyBeq`, oriented the way
the duplicate check of `normalize_tasks` compares a later entry against
earlier ones. -/
def distinctNames (names : List PyVal) : Prop :=
  names.Pairwise (fun a b => pyBeq b a = false)

instance (names : List PyVal) : Decidable (distinctNames names) := by
  unfold distinctNames; infer_instance

/-- The mutated task dict that `normalize_tasks` stores for a valid
entry: `depends_on` defaulted to `[]`, `phase` set to its (defaulted)
value, `manual` set to its (defaulted) value. -/
def normalizedDict (t : PyVal) : PyDictL :=
  match t with
  | .pyDict kvs =>
    let kvs1 := dictSetDefault kvs "depends_on" (.pyList [])
    let kvs2 := dictSet kvs1 "phase" ((dictGet kvs1 "phase").getD (.pyStr "main"))
    dictSet kvs2 "manual" ((dictGet kvs2 "manual").getD (.pyBool false))
  | _ => []

/-- A normalized task as the scheduler and `select_tasks` consume it:
after `normalize_tasks` every task has a name, a string dependency list,
a phase from the enumeration, a `manual` flag, and an `interactive`
flag.  (Names and dependency names are strings in every configuration
the orchestrator runs; the scheduler uses them as dict keys.) -/
structure OTask where
  name : String
  depends_on : List String
  phase : String
  manual : Bool
  interactive : Bool
deriving DecidableEq, Repr

/-- `select_tasks(tasks, phase, include_manual)` (orchestrator.py lines
247-263): filter to the requested phase, drop manual tasks unless
included, then fail if any surviving task depends on a task outside the
surviving set. -/
def select_tasks (tasks : List OTask) (phase : String) (includeManual : Bool) :
    Except String (List OTask) :=
  let selected := tasks.filter
    (fun t => t.phase == phase && (includeManual || !t.manual))
  let selectedNames := selected.map (fun t => t.name)
  match selected.find? (fun t =>
      t.depends_on.any (fun d => !(selectedNames.contains d))) with
  | some t => .error ("Task " ++ t.name ++ " depends on excluded tasks")
  | none => .ok selected

/-- The per-task exit code and pause-marker behaviour of one run, the
environment the scheduler cannot control: `ret` is the exit code of the
task child process, `markerBefore` tells whether a pause marker exists
when the task is started (the resume flag), `markerAfter` whether a
pause marker exists when the finished child is reaped. -/
structure Env where
  ret : String → Int
  markerBefore : String → Bool
  markerAfter : String → Bool

/-- The externally visible actions of a scheduler run, in program order:
event-log appends (task_start with its interactive/resume fields,
task_end with its exit code and paused flag), workspace provisioning
(`ensure_worktree`), process spawn, and removal of a task record from
the running set. -/
inductive SchedAction where
  | startEvent (task : String) (interactive : Bool) (resume : Bool)
  | provision (task : String)
  | spawn (task : String)
  | endEvent (task : String) (exitCode : Int) (paused : Bool)
  | removeRunning (task : String)
deriving DecidableEq, Repr

/-- The mutable scheduler state of `main` (orchestrator.py lines
441-444): the running map (name with its interactive flag, insertion
ordered), the completed map (name to exit code), the blocked map (name
to failed dependency names), the paused set, plus the trace of emitted
actions and the per-tick progress flag. -/
structure SchedState where
  running : List (String × Bool)
  completed : List (String × Int)
  blocked : List (String × List String)
  paused : List String
  trace : List SchedAction
  progress : Bool
deriving DecidableEq, Repr

/-- First-binding association lookup (Python dict lookup; all maps the
scheduler builds have unique keys). -/
def alookup {α : Type} : List (String × α) → String → Option α
  | [], _ => none
  | (k, v) :: rest, key => if k == key then some v else alookup rest key

/-- Keys of an association list. -/
def akeys {α : Type} (l : List (String × α)) : List String :=
  l.map (fun p => p.1)

/-- `dep in blocked or (dep in completed and completed[dep] != 0)`:
the failed-dependency test of the scheduler (lines 500-504). -/
def depFailed (st : SchedState) (d : String) : Bool :=
  (st.blocked.any (fun p => p.1 == d)) ||
    (match alookup st.completed d with
     | some c => c != 0
     | none => false)

/-- `can_start(task)` (lines 486-487): every dependency completed with
exit code 0. -/
def canStart (st : SchedState) (t : OTask) : Bool :=
  t.depends_on.all (fun d => alookup st.completed d == some 0)

/-- The start scan of one scheduler tick (lines 494-647): walk the task
list in order; skip tasks already running, completed or blocked; block a
pending task with a failed dependency, recording the failing names;
start a pending task whose dependencies all completed with 0 (task_start
event first, then workspace provisioning and spawn; in dry-run mode the
task is instead completed immediately with exit code 0 and nothing is
provisioned or spawned). -/
def startScan (dry : Bool) (env : Env) : List OTask → SchedState → SchedState
  | [], st => st
  | t :: ts, st =>
    if st.running.any (fun p => p.1 == t.name) ||
        (alookup st.completed t.name).isSome ||
        st.blocked.any (fun p => p.1 == t.name) then
      startScan dry env ts st
    else
      if !(t.depends_on.filter (fun d => depFailed st d)).isEmpty then
        startScan dry env ts
          { st with
            blocked := st.blocked ++
              [(t.name, t.depends_on.filter (fun d => depFailed st d))],
            progress := true }
      else if canStart st t then
        if dry then
          startScan dry env ts
            { st with
              trace := st.trace ++ [.startEvent t.name t.interactive
                (t.interactive && env.markerBefore t.name)],
              completed := st.completed ++ [(t.name, 0)],
              progress := true }
        else
          startScan dry env ts
            { st with
              trace := st.trace ++
                [.startEvent t.name t.interactive
                  (t.interactive && env.markerBefore t.name),
                 .provision t.name, .spawn t.name],
              running := st.running ++ [(t.name, t.interactive)],
              progress := true }
      else
        startScan dry env ts st

/-- Whether a reaped task is treated as paused (lines 655-660): it is
interactive and either a pause marker exists after the child exited or
the child exited with code 130 (SIGINT), in which case a marker is
written.  Interactive tasks always have a pause-marker path configured
(line 546 supplies a default). -/
def reapPaused (env : Env) (nb : String × Bool) : Bool :=
  nb.2 && (env.markerAfter nb.1 || env.ret nb.1 == 130)

/-- The exit code recorded for a reaped task (lines 661-666): 2 when
paused, otherwise the child exit code. -/
def reapCode (env : Env) (nb : String × Bool) : Int :=
  if reapPaused env nb then 2 else env.ret nb.1

/-- The reap phase of one scheduler tick (lines 649-684) under the
development's instant-completion process model: every running child has
exited by the time it is polled.  Each finished task is recorded as
completed (paused tasks with code 2 and membership in the paused set), a
task_end event is appended for each, and only afterwards are the records
removed from the running map (the code collects `to_remove` and pops
after the loop). -/
def reap (env : Env) (st : SchedState) : SchedState :=
  { st with
    completed := st.completed ++
      st.running.map (fun nb => (nb.1, reapCode env nb)),
    paused := st.paused ++
      (st.running.filter (fun nb => reapPaused env nb)).map (fun nb => nb.1),
    trace := st.trace
      ++ st.running.map (fun nb =>
          SchedAction.endEvent nb.1 (reapCode env nb) (reapPaused env nb))
      ++ st.running.map (fun nb => SchedAction.removeRunning nb.1),
    running := [],
    progress := st.progress || !st.running.isEmpty }

/-- One tick of the scheduler loop: reset the progress flag, run the
start scan, then reap finished children. -/
def tick (dry : Bool) (env : Env) (tasks : List OTask) (st : SchedState) : SchedState :=
  reap env (startScan dry env tasks { st with progress := false })

/-- Names of tasks neither completed nor blocked, for the deadlock
message (lines 687-691). -/
def pendingNames (tasks : List OTask) (st : SchedState) : List String :=
  (tasks.filter (fun t =>
    !(alookup st.completed t.name).isSome &&
    !(st.blocked.any (fun p => p.1 == t.name)))).map (fun t => t.name)

/-- The scheduler loop (lines 492-710): while fewer than all tasks are
completed or blocked, tick; a tick with no progress and nothing running
raises the deadlock error (caught by `main` into `run_error`).  `fuel`
bounds the recursion; `runSched` supplies enough fuel for any run under
the instant-completion model. -/
def schedLoop (dry : Bool) (env : Env) (tasks : List OTask) :
    Nat → SchedState → SchedState × Option String
  | 0, st => (st, some "fuel exhausted")
  | fuel + 1, st =>
    if st.completed.length + st.blocked.length < tasks.length then
      if !(tick dry env tasks st).progress &&
          (tick dry env tasks st).running.isEmpty then
        (tick dry env tasks st,
          some ("No runnable tasks remaining. Check for cyclic dependencies: "
            ++ String.intercalate ", " (pendingNames tasks (tick dry env tasks st))))
      else
        schedLoop dry env tasks fuel (tick dry env tasks st)
    else (st, none)

/-- The initial scheduler state: empty maps, empty trace. -/
def initState : SchedState :=
  { running := [], completed := [], blocked := [], paused := [],
    trace := [], progress := false }

/-- A whole scheduler run: the final state and the run error (`none` on
normal completion, the deadlock message when the loop raised). -/
def runSched (dry : Bool) (env : Env) (tasks : List OTask) :
    SchedState × Option String :=
  schedLoop dry env tasks (tasks.length + 1) initState

/-- The per-task status string of `write_summary` (lines 737-748):
PAUSED for paused tasks, OK for completed exit 0, FAIL (code) for other
completed codes, BLOCKED (deps: ...) otherwise. -/
def statusOf (st : SchedState) (name : String) : String :=
  match alookup st.completed name with
  | some code =>
    if st.paused.contains name then "PAUSED"
    else if code == 0 then "OK"
    else "FAIL (" ++ toString code ++ ")"
  | none =>
    "BLOCKED (deps: " ++
      String.intercalate ", " ((alookup st.blocked name).getD []) ++ ")"

/-- The summary body lines, one per task in input order (line 737). -/
def summaryLines (st : SchedState) (tasks : List OTask) : List String :=
  tasks.map (fun t => "- " ++ t.name ++ ": " ++ statusOf st t.name)

/-- `non_pause_failures` (line 768): some completed exit code outside
{0, 2}. -/
def nonPauseFailures (st : SchedState) : Bool :=
  st.completed.any (fun p => p.2 != 0 && p.2 != 2)

/-- `failed_run` (line 769): blocked tasks, a run error, or a non-pause
nonzero exit. -/
def failedRun (st : SchedState) (runError : Option String) : Bool :=
  !st.blocked.isEmpty || runError.isSome || nonPauseFailures st

/-- The process exit code of `main` (lines 810-815): 1 when the run
failed, else 2 when some task paused, else 0. -/
def processExit (st : SchedState) (runError : Option String) : Int :=
  if failedRun st runError then 1
  else if !st.paused.isEmpty then 2
  else 0

/-- How the scheduler loop of `main` came to an end: normal loop exit, a
Python exception caught at line 711 (e.g. the deadlock error), or the
process being terminated by a default-disposition signal such as the
SIGTERM the watchdog sends.  orchestrator.py installs no signal handler
(it does not even import the signal module), so a SIGTERM terminates the
interpreter at once: neither the `finally` block nor anything after it
runs. -/
inductive LoopOutcome where
  | normal
  | raised (msg : String)
  | killedBySignal
deriving DecidableEq, Repr

/-- The externally visible steps of `main` after the scheduler loop
(orchestrator.py lines 714-815), in program order: the lock unlink of
the `finally` block, the summary writes, and the final `sys.exit`. -/
inductive FinishStep where
  | releaseLock
  | writeSummary
  | exitWith (code : Int)
deriving DecidableEq, Repr

/-- The sequence of finishing steps of `main` for a given loop outcome
and final scheduler state.  On the normal and raised paths the `finally`
block removes the lock (when this run created it), then both summary
files are written and the process exit code is computed; `raised` sets
`run_error`, which forces `failed_run` and exit code 1.  On a
default-disposition signal the process dies inside the loop: no cleanup
step runs at all. -/
def finishSteps (lockCreated : Bool) (st : SchedState) :
    LoopOutcome → List FinishStep
  | .normal =>
    (if lockCreated then [FinishStep.releaseLock] else []) ++
      [FinishStep.writeSummary, FinishStep.exitWith (processExit st none)]
  | .raised msg =>
    (if lockCreated then [FinishStep.releaseLock] else []) ++
      [FinishStep.writeSummary, FinishStep.exitWith (processExit st (some msg))]
  | .killedBySignal => []

/-- Python `str.strip()` on a decoded input line (leading and trailing
whitespace removed). -/
def pyStrip (l : List Char) : List Char :=
  ((l.dropWhile Char.isWhitespace).reverse.dropWhile Char.isWhitespace).reverse

/-- The pause-command scanner of `run_interactive`
(interactive-runner.py lines 122-139): operator input is accumulated in
a buffer and split at each newline; a completed line whose stripped text
equals the pause command raises the pause request.  `cur` is the current
(reversed) unterminated line; the boolean accumulator is
`pause_requested` (the `and not pause_requested` guard in the source
only prevents re-triggering side effects and does not change the final
flag).  Chunk boundaries of the `os.read` calls do not affect line
assembly, so the scan is modelled over the whole operator input. -/
def pauseScan (pauseCmd : String) : List Char → List Char → Bool → Bool
  | [], _, req => req
  | c :: cs, cur, req =>
    if c = '\n' then
      pauseScan pauseCmd cs []
        (req || (pyStrip cur.reverse == pauseCmd.toList))
    else
      pauseScan pauseCmd cs (c :: cur) req

/-- The newline-terminated lines of an input stream (a trailing
unterminated fragment is not a line, matching the buffer logic of the
runner). -/
def completedLines : List Char → List Char → List (List Char)
  | [], _ => []
  | c :: cs, cur =>
    if c = '\n' then cur.reverse :: completedLines cs []
    else completedLines cs (c :: cur)

/-- The observable outcome of one `run_interactive` session. -/
structure RunnerOutcome where
  exitCode : Int
  markerWritten : Bool
  markerContent : Option String
deriving DecidableEq, Repr

/-- `run_interactive` (interactive-runner.py lines 19-166), restricted
to its observable outcome: scan the operator input for the pause
command; when a pause was requested the runner writes the pause marker
(if a marker path is configured) with a timestamp line and its own exit
code is the pause sentinel 2 regardless of the child exit code (both the
grace-deadline return at line 151 and the final return at line 165
return 2); otherwise the child exit code is propagated unchanged
(line 166). -/
def run_interactive (pauseCmd : String) (hasMarkerPath : Bool)
    (operatorInput : List Char) (childExit : Int) (ts : String) :
    RunnerOutcome :=
  let req := pauseScan pauseCmd operatorInput [] false
  { exitCode := if req then 2 else childExit,
    markerWritten := req && hasMarkerPath,
    markerContent :=
      if req && hasMarkerPath then
        some ("paused_at: " ++ ts ++ "\ncommand: " ++ pauseCmd ++ "\n")
      else none }

/-- The watchdog state relevant to its stall check, as assembled from
the event log by protocol-watch.py: the active task, its log path, its
interactive flag, the current phase, and the last observed log
modification time. -/
structure WatchView where
  activeTask : Option String
  activeLog : Option String
  activeInteractive : Bool
  phase : Option String
  lastLogMtime : Option Int
deriving DecidableEq, Repr

/-- The observable outcome of one stall check. -/
structure StallOutcome where
  alertEmitted : Bool
  killSent : Bool
  watcherStops : Bool
deriving DecidableEq, Repr

/-- The stall check of the watchdog loop (protocol-watch.py lines
140-167): when a stall-timeout is configured, the poll is due, the
active log exists and its modification time has not advanced since the
last observation, and the task has been stalled at least the timeout,
an alert line is printed and appended to the alerts log
(unconditionally), the scheduler is killed only when `--kill-on-stall`
was given and the active task is not an interactive discovery-phase
task, and the watcher returns. -/
def stallCheck (stallTimeout : Int) (killOnStall : Bool) (view : WatchView)
    (now mtime : Int) (logExists dueForCheck : Bool) : StallOutcome :=
  if view.activeLog.isSome && stallTimeout > 0 && dueForCheck && logExists then
    match view.lastLogMtime with
    | none => { alertEmitted := false, killSent := false, watcherStops := false }
    | some m =>
      if mtime == m then
        if now - mtime ≥ stallTimeout then
          { alertEmitted := true,
            killSent := killOnStall &&
              !(view.activeInteractive && view.phase == some "discovery"),
            watcherStops := true }
        else { alertEmitted := false, killSent := false, watcherStops := false }
      else { alertEmitted := false, killSent := false, watcherStops := false }
  else { alertEmitted := false, killSent := false, watcherStops := false }

theorem alookup_append_of_some {α : Type} (l m : List (String × α)) (k : String)
    (v : α) (h : alookup l k = some v) : alookup (l ++ m) k = some v := by
  induction l with
  | nil => simp [alookup] at h
  | cons p rest ih =>
    obtain ⟨k2, v2⟩ := p
    by_cases hk : k2 == k
    · simpa [alookup, hk] using by simpa [alookup, hk] using h
    · simp [alookup, hk] at h ⊢
      exact ih h

theorem alookup_append_of_none {α : Type} (l m : List (String × α)) (k : String)
    (h : alookup l k = none) : alookup (l ++ m) k = alookup m k := by
  induction l with
  | nil => simp [alookup]
  | cons p rest ih =>
    obtain ⟨k2, v2⟩ := p
    by_cases hk : k2 == k
    · simp [alookup, hk] at h
    · simp [alookup, hk] at h ⊢
      exact ih h

theorem alookup_none_iff {α : Type} (l : List (String × α)) (k : String) :
    alookup l k = none ↔ k ∉ akeys l := by
  induction l with
  | nil => simp [alookup, akeys]
  | cons p rest ih =>
    obtain ⟨k2, v2⟩ := p
    by_cases hk : k2 = k
    · subst hk
      simp [alookup, akeys]
    · have hne : (k2 == k) = false := by simp [hk]
      have hke : ¬ k = k2 := fun h => hk h.symm
      simp [alookup, akeys, hne, hke, ih]

theorem alookup_some_mem {α : Type} (l : List (String × α)) (k : String) (v : α)
    (h : alookup l k = some v) : k ∈ akeys l := by
  by_contra hk
  rw [← alookup_none_iff] at hk
  rw [hk] at h
  exact Option.noConfusion h

theorem any_key_eq_mem {α : Type} (l : List (String × α)) (k : String) :
    (l.any (fun p => p.1 == k)) = true ↔ k ∈ akeys l := by
  induction l with
  | nil => simp [akeys]
  | cons p rest ih =>
    obtain ⟨k2, v2⟩ := p
    by_cases hk : k2 = k
    · simp [akeys, hk]
    · have hke : ¬ k = k2 := fun h => hk h.symm
      simp [akeys, hk, hke, ih]

theorem alookup_isSome_iff {α : Type} (l : List (String × α)) (k : String) :
    (alookup l k).isSome = true ↔ k ∈ akeys l := by
  constructor
  · intro h
    rcases hv : alookup l k with _ | v
    · rw [hv] at h
      simp at h
    · exact alookup_some_mem l k v hv
  · intro hm
    rcases hv : alookup l k with _ | v
    · exact absurd hm ((alookup_none_iff l k).mp hv)
    · rfl

/-- A small helper to build tasks of the default main phase. -/
def mkTask (n : String) (deps : List String) (inter : Bool) : OTask :=
  { name := n, depends_on := deps, phase := "main", manual := false,
    interactive := inter }

/-- The three-task scenario of the spec: a with no dependencies, b and c
depending on a. -/
def tasksABC : List OTask :=
  [mkTask "a" [] false, mkTask "b" ["a"] false, mkTask "c" ["a"] false]

/-- Environment in which task a exits 7 and everything else exits 0. -/
def envFail7 : Env :=
  { ret := fun n => if n = "a" then 7 else 0,
    markerBefore := fun _ => false, markerAfter := fun _ => false }

/-- Environment in which every child exits 0 and no pause marker ever
exists: the reference environment of a run where every task trivially
succeeds. -/
def zeroEnv : Env :=
  { ret := fun _ => 0, markerBefore := fun _ => false,
    markerAfter := fun _ => false }

/-- A single non-interactive task. -/
def tasksSingle : List OTask := [mkTask "a" [] false]

/-- Environment in which every child exits with code 2 (a genuine
failure code for a non-interactive task, not a pause). -/
def envTwo : Env :=
  { ret := fun _ => 2, markerBefore := fun _ => false,
    markerAfter := fun _ => false }

/-- An interactive task p that pauses, next to a task x that fails. -/
def tasksPauseFail : List OTask := [mkTask "p" [] true, mkTask "x" [] false]

/-- Environment where x exits 7 and p leaves a pause marker. -/
def envPauseFail : Env :=
  { ret := fun n => if n = "x" then 7 else 0,
    markerBefore := fun _ => false, markerAfter := fun n => n = "p" }

/-- Claim C3 — counterexample.  The claim states the process exit code
is 0 exactly when no task failed and no task was blocked, and that it is
the paused sentinel whenever some task paused.  The code instead (a)
excludes every completed exit code 2 from failure accounting even for
non-interactive tasks, so a run whose only task failed with FAIL (2)
exits 0, and (b) gives the generic failure code 1 priority over the
paused sentinel when a run has both a paused and a failed task. -/
theorem C3_counterexample :
    (processExit (runSched false envTwo tasksSingle).1
        (runSched false envTwo tasksSingle).2 = 0 ∧
      statusOf (runSched false envTwo tasksSingle).1 "a" = "FAIL (2)" ∧
      (runSched false envTwo tasksSingle).1.blocked = []) ∧
    (processExit (runSched false envPauseFail tasksPauseFail).1
        (runSched false envPauseFail tasksPauseFail).2 = 1 ∧
      (runSched false envPauseFail tasksPauseFail).1.paused = ["p"]) := by
  decide

/-- Claim C3 — amended: the process exit code is 0 exactly when no task
is blocked, there is no fatal run error, no completed task has an exit
code outside {0, 2}, and no task paused; it is 1 exactly when the run
failed (blocked tasks, a fatal error, or a non-pause exit code outside
{0, 2}), taking priority over the paused sentinel when both occur; and
it is 2 exactly when the run did not fail and some task paused. -/
theorem C3_thm (st : SchedState) (runError : Option String) :
    (processExit st runError = 0 ↔
      (st.blocked.isEmpty = true ∧ runError = none ∧
        nonPauseFailures st = false ∧ st.paused.isEmpty = true)) ∧
    (processExit st runError = 1 ↔ failedRun st runError = true) ∧
    (processExit st runError = 2 ↔
      (failedRun st runError = false ∧ st.paused.isEmpty = false)) := by
  unfold processExit failedRun
  rcases runError with _ | msg
  · by_cases hb : st.blocked.isEmpty <;>
      by_cases hn : nonPauseFailures st <;>
      by_cases hp : st.paused.isEmpty <;>
      simp [hb, hn, hp]
  · by_cases hb : st.blocked.isEmpty <;>
      by_cases hn : nonPauseFailures st <;>
      by_cases hp : st.paused.isEmpty <;>
      simp [hb, hn, hp]

/-- Witness for C3_thm at the all-OK single-task run: exit code 0. -/
theorem C3_witness :
    processExit (runSched false zeroEnv tasksSingle).1
        (runSched false zeroEnv tasksSingle).2 = 0 ↔
      ((runSched false zeroEnv tasksSingle).1.blocked.isEmpty = true ∧
        (runSched false zeroEnv tasksSingle).2 = none ∧
        nonPauseFailures (runSched false zeroEnv tasksSingle).1 = false ∧
        (runSched false zeroEnv tasksSingle).1.paused.isEmpty = true) :=
  (C3_thm (runSched false zeroEnv tasksSingle).1
    (runSched false zeroEnv tasksSingle).2).1

/-- Claim C4 — counterexample.  The claim states the lock file is
removed on every exit path including termination by signal.  The source
installs no signal handler, so a default-disposition SIGTERM kills the
process inside the loop: no finishing step runs, in particular the lock
is not released — while on the error path it is. -/
theorem C4_counterexample :
    finishSteps true (runSched false envFail7 tasksABC).1 .killedBySignal = [] ∧
    FinishStep.releaseLock ∈
      finishSteps true (runSched false envFail7 tasksABC).1
        (.raised "No runnable tasks remaining") := by
  decide

/-- Claim C4 — amended: for a run that acquired the lock, the lock is
removed on the normal-completion and fatal-error exit paths of the loop
(the try/finally), and on the fatal-error path the summary is still
written and the nonzero exit code 1 still produced, both after the lock
release; on termination by a default-disposition signal no cleanup runs
and the lock is not removed. -/
theorem C4_thm (lockCreated : Bool) (st : SchedState) (msg : String) :
    (lockCreated = true →
      finishSteps lockCreated st (.raised msg) =
        [.releaseLock, .writeSummary, .exitWith 1] ∧
      finishSteps lockCreated st .normal =
        [.releaseLock, .writeSummary, .exitWith (processExit st none)]) ∧
    finishSteps lockCreated st .killedBySignal = [] := by
  constructor
  · intro h
    subst h
    constructor
    · simp [finishSteps, processExit, failedRun]
    · simp [finishSteps]
  · simp [finishSteps]

/-- Witness for C4_thm: the failing three-task run with the lock held. -/
theorem C4_witness :
    finishSteps true (runSched false envFail7 tasksABC).1 (.raised "deadlock") =
        [.releaseLock, .writeSummary, .exitWith 1] ∧
      finishSteps true (runSched false envFail7 tasksABC).1 .normal =
        [.releaseLock, .writeSummary,
          .exitWith (processExit (runSched false envFail7 tasksABC).1 none)] :=
  (C4_thm true (runSched false envFail7 tasksABC).1 "deadlock").1 rfl

/-- Claim C8 — counterexample.  The claim states the watchdog neither
emits a stall alert nor sends a termination signal while the active task
is interactive and the phase is discovery.  In the source only the kill
is guarded by the interactive-discovery test; the alert is emitted (and
the watcher stops) regardless. -/
theorem C8_counterexample :
    stallCheck 900 true
      { activeTask := some "discovery", activeLog := some "log",
        activeInteractive := true, phase := some "discovery",
        lastLogMtime := some 100 }
      2000 100 true true =
      { alertEmitted := true, killSent := false, watcherStops := true } := by
  decide

/-- Claim C8 — amended: while the active task is interactive and the
phase is discovery the watchdog never sends a termination signal to the
scheduler, even with kill-on-stall configured; but when the active log
modification time has been frozen beyond the stall timeout it still
emits the stall alert (and stops watching). -/
theorem C8_thm (stallTimeout : Int) (killOnStall : Bool) (view : WatchView)
    (now mtime : Int) (logExists dueForCheck : Bool)
    (hInter : view.activeInteractive = true)
    (hPhase : view.phase = some "discovery") :
    (stallCheck stallTimeout killOnStall view now mtime logExists
        dueForCheck).killSent = false ∧
    (view.activeLog.isSome = true → stallTimeout > 0 → dueForCheck = true →
      logExists = true → view.lastLogMtime = some mtime →
      now - mtime ≥ stallTimeout →
      (stallCheck stallTimeout killOnStall view now mtime logExists
          dueForCheck).alertEmitted = true) := by
  constructor
  · unfold stallCheck
    split
    · rcases h : view.lastLogMtime with _ | m
      · simp [h]
      · simp only [h]
        by_cases hm : mtime == m
        · by_cases hs : now - mtime ≥ stallTimeout
          · simp [hm, hs, hInter, hPhase]
          · simp [hm, hs]
        · simp [hm]
    · rfl
  · intro hLog hT hDue hEx hM hS
    unfold stallCheck
    simp [hLog, hT, hDue, hEx, hM, hS]

/-- Witness for C8_thm at the counterexample inputs. -/
theorem C8_witness :
    (stallCheck 900 true
      { activeTask := some "discovery", activeLog := some "log",
        activeInteractive := true, phase := some "discovery",
        lastLogMtime := some 100 }
      2000 100 true true).killSent = false :=
  (C8_thm 900 true
    { activeTask := some "discovery", activeLog := some "log",
      activeInteractive := true, phase := some "discovery",
      lastLogMtime := some 100 }
    2000 100 true true rfl rfl).1

theorem pauseScan_spec (cmd : String) (input : List Char) :
    ∀ (cur : List Char) (req : Bool),
    pauseScan cmd input cur req =
      (req || (completedLines input cur).any
        (fun l => pyStrip l == cmd.toList)) := by
  induction input with
  | nil => intro cur req; simp [pauseScan, completedLines]
  | cons c cs ih =>
    intro cur req
    by_cases hc : c = '\n'
    · simp [pauseScan, completedLines, hc, ih, Bool.or_assoc]
    · simp [pauseScan, completedLines, hc, ih]

/-- Claim C7: if some operator input line, after line-splitting and
stripping, exactly equals the configured pause command, the runner
writes the pause marker (given its configured path) containing the
timestamp line, and its exit code is the paused sentinel 2 regardless of
the child exit code; if no line matches, the runner exits with the child
exit code unchanged and writes no marker. -/
theorem C7_thm (pauseCmd : String) (hasMarkerPath : Bool) (input : List Char)
    (childExit : Int) (ts : String) :
    ((∃ line ∈ completedLines input [], pyStrip line = pauseCmd.toList) →
      (run_interactive pauseCmd hasMarkerPath input childExit ts).exitCode = 2 ∧
      (hasMarkerPath = true →
        (run_interactive pauseCmd hasMarkerPath input childExit ts).markerWritten
            = true ∧
        (run_interactive pauseCmd hasMarkerPath input childExit ts).markerContent
            = some ("paused_at: " ++ ts ++ "\ncommand: " ++ pauseCmd ++ "\n"))) ∧
    ((∀ line ∈ completedLines input [], ¬ pyStrip line = pauseCmd.toList) →
      (run_interactive pauseCmd hasMarkerPath input childExit ts).exitCode
          = childExit ∧
      (run_interactive pauseCmd hasMarkerPath input childExit ts).markerWritten
          = false) := by
  constructor
  · rintro ⟨line, hmem, hline⟩
    have hreq : pauseScan pauseCmd input [] false = true := by
      rw [pauseScan_spec]
      simp only [Bool.false_or, List.any_eq_true]
      exact ⟨line, hmem, by simp [hline]⟩
    refine ⟨?_, ?_⟩
    · simp [run_interactive, hreq]
    · intro hm
      subst hm
      constructor
      · simp [run_interactive, hreq]
      · simp [run_interactive, hreq]
  · intro hnone
    have hreq : pauseScan pauseCmd input [] false = false := by
      rw [pauseScan_spec]
      simp only [Bool.false_or, List.any_eq_false]
      intro l hl
      simpa using hnone l hl
    constructor
    · simp [run_interactive, hreq]
    · simp [run_interactive, hreq]

/-- Witness for C7_thm: a session whose operator types the default pause
command on its own line pauses with exit 2 and a marker; one that does
not sees the child exit code 7 unchanged. -/
theorem C7_witness :
    ((run_interactive "/pause" true ("hi\n /pause \n".toList) 7 "T").exitCode = 2 ∧
      (run_interactive "/pause" true ("hi\n /pause \n".toList) 7 "T").markerWritten
          = true) ∧
    (run_interactive "/pause" true ("hi there\n".toList) 7 "T").exitCode = 7 :=
  ⟨⟨((C7_thm "/pause" true ("hi\n /pause \n".toList) 7 "T").1
      ⟨" /pause ".toList, by decide, by decide⟩).1,
    (((C7_thm "/pause" true ("hi\n /pause \n".toList) 7 "T").1
      ⟨" /pause ".toList, by decide, by decide⟩).2 rfl).1⟩,
    ((C7_thm "/pause" true ("hi there\n".toList) 7 "T").2 (by decide)).1⟩

/-- The surviving set of `select_tasks`: tasks of the requested phase,
manual-gated ones dropped unless included. -/
def survFilter (tasks : List OTask) (phase : String) (im : Bool) : List OTask :=
  tasks.filter (fun t => t.phase == phase && (im || !t.manual))

theorem select_tasks_eq (tasks : List OTask) (phase : String) (im : Bool) :
    select_tasks tasks phase im =
      match (survFilter tasks phase im).find?
        (fun t => t.depends_on.any (fun d =>
          !(((survFilter tasks phase im).map (fun t => t.name)).contains d))) with
      | some t => .error ("Task " ++ t.name ++ " depends on excluded tasks")
      | none => .ok (survFilter tasks phase im) := rfl

/-- Claim C6: selection filters to the requested phase, dropping manual
tasks unless included (including them restores exactly the manual ones),
and errs - rather than silently skipping - exactly when some surviving
task has a dependency outside the surviving set. -/
theorem C6_thm (tasks : List OTask) (phase : String) (im : Bool) :
    ((∀ t ∈ survFilter tasks phase im, ∀ d ∈ t.depends_on,
        d ∈ (survFilter tasks phase im).map (fun t => t.name)) →
      select_tasks tasks phase im = .ok (survFilter tasks phase im)) ∧
    ((∃ t ∈ survFilter tasks phase im, ∃ d ∈ t.depends_on,
        d ∉ (survFilter tasks phase im).map (fun t => t.name)) →
      (select_tasks tasks phase im).isOk = false) ∧
    survFilter tasks phase true = tasks.filter (fun t => t.phase == phase) ∧
    survFilter tasks phase false =
      tasks.filter (fun t => t.phase == phase && !t.manual) := by
  refine ⟨?_, ?_, ?_, ?_⟩
  · intro hok
    rw [select_tasks_eq]
    have hfind : (survFilter tasks phase im).find?
        (fun t => t.depends_on.any (fun d =>
          !(((survFilter tasks phase im).map (fun t => t.name)).contains d)))
        = none := by
      rw [List.find?_eq_none]
      intro t ht hp
      simp only [List.any_eq_true] at hp
      obtain ⟨d, hd, hcon⟩ := hp
      rw [Bool.not_eq_true'] at hcon
      exact absurd (hok t ht d hd) (by simpa using hcon)
    rw [hfind]
  · rintro ⟨t, ht, d, hd, hnot⟩
    rw [select_tasks_eq]
    rcases hfind : (survFilter tasks phase im).find?
        (fun t => t.depends_on.any (fun d =>
          !(((survFilter tasks phase im).map (fun t => t.name)).contains d)))
        with _ | bad
    · exfalso
      apply List.find?_eq_none.mp hfind t ht
      simp only [List.any_eq_true]
      refine ⟨d, hd, ?_⟩
      cases hcon : ((survFilter tasks phase im).map (fun t => t.name)).contains d
      · rfl
      · exact (hnot (by simpa using hcon)).elim
    · rw [hfind]
      rfl
  · unfold survFilter
    apply List.filter_congr
    intro t _
    simp
  · rfl

/-- Witness for C6_thm: a two-task list with one manual task; selection
without manual returns only the automatic one, and a cross-phase
dependency errs. -/
theorem C6_witness :
    select_tasks
      [{ name := "t1", depends_on := [], phase := "main", manual := false,
         interactive := false },
       { name := "t2", depends_on := [], phase := "main", manual := true,
         interactive := false }] "main" false =
      .ok [{ name := "t1", depends_on := [], phase := "main", manual := false,
             interactive := false }] ∧
    (select_tasks
      [{ name := "u1", depends_on := ["u2"], phase := "main", manual := false,
         interactive := false },
       { name := "u2", depends_on := [], phase := "post", manual := false,
         interactive := false }] "main" false).isOk = false :=
  ⟨(C6_thm
      [{ name := "t1", depends_on := [], phase := "main", manual := false,
         interactive := false },
       { name := "t2", depends_on := [], phase := "main", manual := true,
         interactive := false }] "main" false).1 (by decide),
   (C6_thm
      [{ name := "u1", depends_on := ["u2"], phase := "main", manual := false,
         interactive := false },
       { name := "u2", depends_on := [], phase := "post", manual := false,
         interactive := false }] "main" false).2.1
     ⟨{ name := "u1", depends_on := ["u2"], phase := "main", manual := false,
        interactive := false }, by decide, "u2", by decide, by decide⟩⟩


/-- Every spawn in a trace is strictly preceded by a task_start event of
the same task. -/
def SpawnSafe (tr : List SchedAction) : Prop :=
  ∀ (i : Nat) (n : String), tr[i]? = some (SchedAction.spawn n) →
    ∃ j, j < i ∧ ∃ b r, tr[j]? = some (SchedAction.startEvent n b r)

/-- Every removal from the running set in a trace is strictly preceded
by a task_end event of the same task. -/
def RemoveSafe (tr : List SchedAction) : Prop :=
  ∀ (i : Nat) (n : String), tr[i]? = some (SchedAction.removeRunning n) →
    ∃ j, j < i ∧ ∃ c p, tr[j]? = some (SchedAction.endEvent n c p)

theorem spawnSafe_append_nospawn (tr C : List SchedAction) (h : SpawnSafe tr)
    (hC : ∀ n, SchedAction.spawn n ∉ C) : SpawnSafe (tr ++ C) := by
  unfold SpawnSafe at h ⊢
  intro i n hi
  by_cases hlt : i < tr.length
  · rw [List.getElem?_append_left hlt] at hi
    obtain ⟨j, hj, b, r, hjs⟩ := h i n hi
    refine ⟨j, hj, b, r, ?_⟩
    rw [List.getElem?_append_left (lt_trans hj hlt)]
    exact hjs
  · push_neg at hlt
    rw [List.getElem?_append_right hlt] at hi
    exact absurd (List.getElem?_mem hi) (hC n)

theorem spawnSafe_append_start (tr : List SchedAction) (h : SpawnSafe tr)
    (n : String) (b r : Bool) :
    SpawnSafe (tr ++ [SchedAction.startEvent n b r, SchedAction.provision n,
      SchedAction.spawn n]) := by
  unfold SpawnSafe at h ⊢
  intro i m hi
  by_cases hlt : i < tr.length
  · rw [List.getElem?_append_left hlt] at hi
    obtain ⟨j, hj, b2, r2, hjs⟩ := h i m hi
    refine ⟨j, hj, b2, r2, ?_⟩
    rw [List.getElem?_append_left (lt_trans hj hlt)]
    exact hjs
  · push_neg at hlt
    rw [List.getElem?_append_right hlt] at hi
    have hsize : i - tr.length < 3 := by
      by_contra hge
      push_neg at hge
      rw [List.getElem?_eq_none (by simpa using hge)] at hi
      exact Option.noConfusion hi
    have hcases : i - tr.length = 0 ∨ i - tr.length = 1 ∨ i - tr.length = 2 := by
      omega
    rcases hcases with h0 | h1 | h2
    · rw [h0] at hi
      simp at hi
    · rw [h1] at hi
      simp at hi
    · rw [h2] at hi
      simp at hi
      refine ⟨tr.length, by omega, b, r, ?_⟩
      rw [List.getElem?_append_right (le_refl tr.length)]
      simp [hi]

theorem removeSafe_append (tr C : List SchedAction) (h : RemoveSafe tr)
    (hC : ∀ n, SchedAction.removeRunning n ∈ C →
      ∃ c p, SchedAction.endEvent n c p ∈ tr) : RemoveSafe (tr ++ C) := by
  unfold RemoveSafe at h ⊢
  intro i n hi
  by_cases hlt : i < tr.length
  · rw [List.getElem?_append_left hlt] at hi
    obtain ⟨j, hj, c, p, hjs⟩ := h i n hi
    refine ⟨j, hj, c, p, ?_⟩
    rw [List.getElem?_append_left (lt_trans hj hlt)]
    exact hjs
  · push_neg at hlt
    rw [List.getElem?_append_right hlt] at hi
    obtain ⟨c, p, hmem⟩ := hC n (List.getElem?_mem hi)
    obtain ⟨j, hjlt, hjeq⟩ := List.getElem_of_mem hmem
    refine ⟨j, lt_of_lt_of_le hjlt hlt, c, p, ?_⟩
    rw [List.getElem?_append_left hjlt, List.getElem?_eq_getElem hjlt, hjeq]

theorem traceSafe_startScan (dry : Bool) (env : Env) (l : List OTask) :
    ∀ st : SchedState, SpawnSafe st.trace → RemoveSafe st.trace →
      SpawnSafe (startScan dry env l st).trace ∧
        RemoveSafe (startScan dry env l st).trace := by
  induction l with
  | nil => intro st h1 h2; exact ⟨h1, h2⟩
  | cons t ts ih =>
    intro st h1 h2
    rw [startScan]
    split
    · exact ih st h1 h2
    · split
      · exact ih _ h1 h2
      · split
        · split
          · refine ih _ ?_ ?_
            · exact spawnSafe_append_nospawn _ _ h1 (by intro n hmem; simp at hmem)
            · exact removeSafe_append _ _ h2 (by intro n hmem; simp at hmem)
          · refine ih _ ?_ ?_
            · exact spawnSafe_append_start _ h1 _ _ _
            · exact removeSafe_append _ _ h2 (by intro n hmem; simp at hmem)
        · exact ih _ h1 h2

theorem traceSafe_reap (env : Env) (st : SchedState)
    (h1 : SpawnSafe st.trace) (h2 : RemoveSafe st.trace) :
    SpawnSafe (reap env st).trace ∧ RemoveSafe (reap env st).trace := by
  unfold reap
  constructor
  · apply spawnSafe_append_nospawn
    · apply spawnSafe_append_nospawn _ _ h1
      intro n hmem
      simp at hmem
    · intro n hmem
      simp at hmem
  · apply removeSafe_append
    · apply removeSafe_append _ _ h2
      intro n hmem
      simp at hmem
    · intro n hmem
      simp only [List.mem_map] at hmem
      obtain ⟨nb, hnb, heq⟩ := hmem
      have hname : nb.1 = n := by
        cases heq
        rfl
      refine ⟨reapCode env nb, reapPaused env nb, ?_⟩
      apply List.mem_append_right
      exact List.mem_map.mpr ⟨nb, hnb, by rw [hname]⟩

theorem traceSafe_tick (dry : Bool) (env : Env) (tasks : List OTask)
    (st : SchedState) (h1 : SpawnSafe st.trace) (h2 : RemoveSafe st.trace) :
    SpawnSafe (tick dry env tasks st).trace ∧
      RemoveSafe (tick dry env tasks st).trace := by
  unfold tick
  have hs := traceSafe_startScan dry env tasks { st with progress := false } h1 h2
  exact traceSafe_reap env _ hs.1 hs.2

theorem traceSafe_loop (dry : Bool) (env : Env) (tasks : List OTask) :
    ∀ (fuel : Nat) (st : SchedState), SpawnSafe st.trace → RemoveSafe st.trace →
      SpawnSafe (schedLoop dry env tasks fuel st).1.trace ∧
        RemoveSafe (schedLoop dry env tasks fuel st).1.trace := by
  intro fuel
  induction fuel with
  | zero => intro st h1 h2; exact ⟨h1, h2⟩
  | succ f ih =>
    intro st h1 h2
    rw [schedLoop]
    split
    · have ht := traceSafe_tick dry env tasks st h1 h2
      split
      · exact ht
      · exact ih _ ht.1 ht.2
    · exact ⟨h1, h2⟩

/-- Claim C5: in every scheduler run, every spawn action in the emitted
trace is strictly preceded by the task_start event of the same task (so
the log records the attempted start even if the spawn later fails), and
every removal of a task record from the running set is strictly preceded
by the task_end event of that task. -/
theorem C5_thm (dry : Bool) (env : Env) (tasks : List OTask) :
    SpawnSafe (runSched dry env tasks).1.trace ∧
      RemoveSafe (runSched dry env tasks).1.trace := by
  apply traceSafe_loop
  · intro i n hi
    simp [initState] at hi
  · intro i n hi
    simp [initState] at hi

/-- Witness for C5_thm at the failing three-task run. -/
theorem C5_witness :
    SpawnSafe (runSched false envFail7 tasksABC).1.trace ∧
      RemoveSafe (runSched false envFail7 tasksABC).1.trace :=
  C5_thm false envFail7 tasksABC

theorem alookup_pair_mem {α : Type} (l : List (String × α)) (k : String) (v : α)
    (h : alookup l k = some v) : (k, v) ∈ l := by
  induction l with
  | nil => simp [alookup] at h
  | cons p rest ih =>
    obtain ⟨k2, v2⟩ := p
    by_cases hk : k2 = k
    · subst hk
      simp [alookup] at h
      simp [h]
    · have hne : (k2 == k) = false := by simp [hk]
      simp [alookup, hne] at h
      exact List.mem_cons_of_mem _ (ih h)

/-- The names of a task list, in order. -/
def taskNames (tasks : List OTask) : List String :=
  tasks.map (fun t => t.name)

/-- The dependency list of the named task in the configuration (first
match; the scheduler only consults it for names of tasks in the list). -/
def depsOf (tasks : List OTask) (n : String) : List String :=
  match tasks.find? (fun t => t.name == n) with
  | some t => t.depends_on
  | none => []

theorem depsOf_eq (tasks : List OTask) (t : OTask)
    (hnd : (taskNames tasks).Nodup) (ht : t ∈ tasks) :
    depsOf tasks t.name = t.depends_on := by
  induction tasks with
  | nil => cases ht
  | cons h rest ih =>
    have hnds : (∀ x ∈ rest, ¬ x.name = h.name) ∧
        (List.map (fun t => t.name) rest).Nodup := by
      simpa [taskNames] using hnd
    rcases List.mem_cons.mp ht with rfl | hmem
    · unfold depsOf
      rw [List.find?_cons_of_pos _ (by simp)]
    · have hne : h.name ≠ t.name := fun he => hnds.1 t hmem he.symm
      unfold depsOf at ih ⊢
      rw [List.find?_cons_of_neg _ (by simp [hne])]
      exact ih hnds.2 hmem

theorem canStart_deps (st : SchedState) (t : OTask) (h : canStart st t = true) :
    ∀ d ∈ t.depends_on, alookup st.completed d = some 0 := by
  intro d hd
  unfold canStart at h
  rw [List.all_eq_true] at h
  simpa using h d hd

theorem akeys_append {α : Type} (l m : List (String × α)) :
    akeys (l ++ m) = akeys l ++ akeys m := by
  simp [akeys]

theorem akeys_map_pair {α β : Type} (l : List (String × α))
    (g : String × α → β) :
    akeys (l.map (fun x => (x.1, g x))) = akeys l := by
  unfold akeys
  rw [List.map_map]
  rfl

theorem alookup_map_pair {α β : Type} (l : List (String × α))
    (g : String × α → β) (hnd : (akeys l).Nodup) (nb : String × α)
    (hmem : nb ∈ l) :
    alookup (l.map (fun x => (x.1, g x))) nb.1 = some (g nb) := by
  induction l with
  | nil => cases hmem
  | cons h rest ih =>
    have hnds : (∀ x : α, (h.1, x) ∉ rest) ∧
        (List.map (fun p => p.1) rest).Nodup := by
      simpa [akeys] using hnd
    rcases List.mem_cons.mp hmem with rfl | hm
    · simp [alookup]
    · have hne : h.1 ≠ nb.1 := by
        intro he
        have h2 := hnds.1 nb.2
        rw [he] at h2
        exact h2 hm
      have hne2 : (h.1 == nb.1) = false := by simp [hne]
      simp only [List.map_cons, alookup, hne2, Bool.false_eq_true, if_false]
      exact ih hnds.2 hm

/-- The scheduler-state invariant maintained by every tick: the three
maps have unique keys drawn from the configuration, are pairwise
disjoint, every running or completed task was started with all its
dependencies completed at 0 (likewise everything ever spawned), and
every paused task is recorded completed with the pause code 2. -/
structure SchedInv (tasks : List OTask) (st : SchedState) : Prop where
  compNodup : (akeys st.completed).Nodup
  blkNodup : (akeys st.blocked).Nodup
  runNodup : (akeys st.running).Nodup
  compSub : ∀ n ∈ akeys st.completed, n ∈ taskNames tasks
  blkSub : ∀ n ∈ akeys st.blocked, n ∈ taskNames tasks
  runSub : ∀ n ∈ akeys st.running, n ∈ taskNames tasks
  compBlkDisj : ∀ n ∈ akeys st.completed, n ∉ akeys st.blocked
  runCompDisj : ∀ n ∈ akeys st.running, alookup st.completed n = none
  runBlkDisj : ∀ n ∈ akeys st.running, n ∉ akeys st.blocked
  compDeps : ∀ n ∈ akeys st.completed, ∀ d ∈ depsOf tasks n,
    alookup st.completed d = some 0
  runDeps : ∀ n ∈ akeys st.running, ∀ d ∈ depsOf tasks n,
    alookup st.completed d = some 0
  pausedCode : ∀ n ∈ st.paused, alookup st.completed n = some 2
  spawnDeps : ∀ n : String, SchedAction.spawn n ∈ st.trace →
    ∀ d ∈ depsOf tasks n, alookup st.completed d = some 0

theorem schedInv_init (tasks : List OTask) : SchedInv tasks initState := by
  constructor <;> simp [initState, akeys]

theorem alookup_append_single_ne {α : Type} (l : List (String × α))
    (k k2 : String) (v : α) (hne : k2 ≠ k) :
    alookup (l ++ [(k2, v)]) k = alookup l k := by
  rcases h : alookup l k with _ | w
  · rw [alookup_append_of_none _ _ _ h]
    simp [alookup, hne]
  · exact alookup_append_of_some _ _ _ _ h

theorem alookup_append_single_self {α : Type} (l : List (String × α))
    (k : String) (v : α) (h : alookup l k = none) :
    alookup (l ++ [(k, v)]) k = some v := by
  rw [alookup_append_of_none _ _ _ h]
  simp [alookup]

theorem schedInv_block (tasks : List OTask) (st : SchedState) (t : OTask)
    (ht : t ∈ tasks)
    (hrun : t.name ∉ akeys st.running)
    (hcomp : alookup st.completed t.name = none)
    (hblk : t.name ∉ akeys st.blocked)
    (hInv : SchedInv tasks st) (cause : List String) :
    SchedInv tasks { st with
      blocked := st.blocked ++ [(t.name, cause)], progress := true } := by
  have htn : t.name ∈ taskNames tasks := List.mem_map.mpr ⟨t, ht, rfl⟩
  refine ⟨hInv.compNodup, ?_, hInv.runNodup, hInv.compSub, ?_, hInv.runSub,
    ?_, hInv.runCompDisj, ?_, hInv.compDeps, hInv.runDeps, hInv.pausedCode,
    hInv.spawnDeps⟩
  · rw [akeys_append, List.nodup_append]
    refine ⟨hInv.blkNodup, by simp [akeys], ?_⟩
    intro a ha hb
    simp [akeys] at hb
    subst hb
    exact hblk ha
  · intro n hn
    rw [akeys_append] at hn
    rcases List.mem_append.mp hn with h | h
    · exact hInv.blkSub n h
    · simp [akeys] at h
      subst h
      exact htn
  · intro n hn
    rw [akeys_append]
    intro hmem
    rcases List.mem_append.mp hmem with h | h
    · exact hInv.compBlkDisj n hn h
    · simp [akeys] at h
      subst h
      exact (alookup_none_iff _ _).mp hcomp hn
  · intro n hn
    rw [akeys_append]
    intro hmem
    rcases List.mem_append.mp hmem with h | h
    · exact hInv.runBlkDisj n hn h
    · simp [akeys] at h
      subst h
      exact hrun hn

theorem schedInv_dryComplete (tasks : List OTask) (st : SchedState) (t : OTask)
    (hnd : (taskNames tasks).Nodup) (ht : t ∈ tasks)
    (hrun : t.name ∉ akeys st.running)
    (hcomp : alookup st.completed t.name = none)
    (hblk : t.name ∉ akeys st.blocked)
    (hcs : canStart st t = true)
    (hInv : SchedInv tasks st) (tr : List SchedAction)
    (htr : ∀ n : String, SchedAction.spawn n ∈ tr →
      SchedAction.spawn n ∈ st.trace) :
    SchedInv tasks { st with
      trace := tr,
      completed := st.completed ++ [(t.name, 0)],
      progress := true } := by
  have htn : t.name ∈ taskNames tasks := List.mem_map.mpr ⟨t, ht, rfl⟩
  have hfresh : t.name ∉ akeys st.completed := (alookup_none_iff _ _).mp hcomp
  refine ⟨?_, hInv.blkNodup, hInv.runNodup, ?_, hInv.blkSub, hInv.runSub,
    ?_, ?_, hInv.runBlkDisj, ?_, ?_, ?_, ?_⟩
  · rw [akeys_append, List.nodup_append]
    refine ⟨hInv.compNodup, by simp [akeys], ?_⟩
    intro a ha hb
    simp [akeys] at hb
    subst hb
    exact hfresh ha
  · intro n hn
    rw [akeys_append] at hn
    rcases List.mem_append.mp hn with h | h
    · exact hInv.compSub n h
    · simp [akeys] at h
      subst h
      exact htn
  · intro n hn
    rw [akeys_append] at hn
    rcases List.mem_append.mp hn with h | h
    · exact hInv.compBlkDisj n h
    · simp [akeys] at h
      subst h
      exact hblk
  · intro n hn
    have hne : t.name ≠ n := by
      intro he
      exact hrun (he ▸ hn)
    rw [alookup_append_single_ne _ _ _ _ hne]
    exact hInv.runCompDisj n hn
  · intro n hn d hd
    rw [akeys_append] at hn
    rcases List.mem_append.mp hn with h | h
    · exact alookup_append_of_some _ _ _ _ (hInv.compDeps n h d hd)
    · simp [akeys] at h
      subst h
      rw [depsOf_eq tasks t hnd ht] at hd
      exact alookup_append_of_some _ _ _ _ (canStart_deps st t hcs d hd)
  · intro n hn d hd
    exact alookup_append_of_some _ _ _ _ (hInv.runDeps n hn d hd)
  · intro n hn
    exact alookup_append_of_some _ _ _ _ (hInv.pausedCode n hn)
  · intro n hn d hd
    exact alookup_append_of_some _ _ _ _ (hInv.spawnDeps n (htr n hn) d hd)

theorem schedInv_spawn (tasks : List OTask) (st : SchedState) (t : OTask)
    (hnd : (taskNames tasks).Nodup) (ht : t ∈ tasks)
    (hrun : t.name ∉ akeys st.running)
    (hcomp : alookup st.completed t.name = none)
    (hblk : t.name ∉ akeys st.blocked)
    (hcs : canStart st t = true)
    (hInv : SchedInv tasks st) (b r : Bool) :
    SchedInv tasks { st with
      trace := st.trace ++ [SchedAction.startEvent t.name b r,
        SchedAction.provision t.name, SchedAction.spawn t.name],
      running := st.running ++ [(t.name, t.interactive)],
      progress := true } := by
  have htn : t.name ∈ taskNames tasks := List.mem_map.mpr ⟨t, ht, rfl⟩
  refine ⟨hInv.compNodup, hInv.blkNodup, ?_, hInv.compSub, hInv.blkSub, ?_,
    hInv.compBlkDisj, ?_, ?_, hInv.compDeps, ?_, hInv.pausedCode, ?_⟩
  · rw [akeys_append, List.nodup_append]
    refine ⟨hInv.runNodup, by simp [akeys], ?_⟩
    intro a ha hb
    simp [akeys] at hb
    subst hb
    exact hrun ha
  · intro n hn
    rw [akeys_append] at hn
    rcases List.mem_append.mp hn with h | h
    · exact hInv.runSub n h
    · simp [akeys] at h
      subst h
      exact htn
  · intro n hn
    rw [akeys_append] at hn
    rcases List.mem_append.mp hn with h | h
    · exact hInv.runCompDisj n h
    · simp [akeys] at h
      subst h
      exact hcomp
  · intro n hn
    rw [akeys_append] at hn
    rcases List.mem_append.mp hn with h | h
    · exact hInv.runBlkDisj n h
    · simp [akeys] at h
      subst h
      exact hblk
  · intro n hn d hd
    rw [akeys_append] at hn
    rcases List.mem_append.mp hn with h | h
    · exact hInv.runDeps n h d hd
    · simp [akeys] at h
      subst h
      rw [depsOf_eq tasks t hnd ht] at hd
      exact canStart_deps st t hcs d hd
  · intro n hn d hd
    rcases List.mem_append.mp hn with h | h
    · exact hInv.spawnDeps n h d hd
    · simp at h
      subst h
      rw [depsOf_eq tasks t hnd ht] at hd
      exact canStart_deps st t hcs d hd

theorem schedInv_reap (tasks : List OTask) (env : Env) (st : SchedState)
    (hInv : SchedInv tasks st) : SchedInv tasks (reap env st) := by
  unfold reap
  have hak : akeys (st.running.map (fun nb => (nb.1, reapCode env nb))) =
      akeys st.running := akeys_map_pair _ _
  have hstab : ∀ (d : String) (v : Int), alookup st.completed d = some v →
      alookup (st.completed ++
        st.running.map (fun nb => (nb.1, reapCode env nb))) d = some v :=
    fun d v h => alookup_append_of_some _ _ _ _ h
  have hlook : ∀ nb ∈ st.running,
      alookup (st.completed ++
        st.running.map (fun nb => (nb.1, reapCode env nb))) nb.1 =
        some (reapCode env nb) := by
    intro nb hnb
    rw [alookup_append_of_none _ _ _
      (hInv.runCompDisj nb.1 (List.mem_map.mpr ⟨nb, hnb, rfl⟩))]
    exact alookup_map_pair _ _ hInv.runNodup nb hnb
  refine ⟨?_, hInv.blkNodup, by simp [akeys], ?_, hInv.blkSub,
    by simp [akeys], ?_, by simp [akeys], by simp [akeys], ?_,
    by simp [akeys], ?_, ?_⟩
  · rw [akeys_append, hak, List.nodup_append]
    refine ⟨hInv.compNodup, hInv.runNodup, ?_⟩
    intro a ha hb
    exact (alookup_none_iff _ _).mp (hInv.runCompDisj a hb) ha
  · intro n hn
    rw [akeys_append, hak] at hn
    rcases List.mem_append.mp hn with h | h
    · exact hInv.compSub n h
    · exact hInv.runSub n h
  · intro n hn
    rw [akeys_append, hak] at hn
    rcases List.mem_append.mp hn with h | h
    · exact hInv.compBlkDisj n h
    · exact hInv.runBlkDisj n h
  · intro n hn d hd
    rw [akeys_append, hak] at hn
    rcases List.mem_append.mp hn with h | h
    · exact hstab d 0 (hInv.compDeps n h d hd)
    · exact hstab d 0 (hInv.runDeps n h d hd)
  · intro n hn
    rcases List.mem_append.mp hn with h | h
    · exact hstab n 2 (hInv.pausedCode n h)
    · rw [List.mem_map] at h
      obtain ⟨nb, hnb, heq⟩ := h
      have hmf := List.mem_filter.mp hnb
      have hcode : reapCode env nb = 2 := by
        unfold reapCode
        rw [hmf.2]
        rfl
      subst heq
      rw [hlook nb hmf.1, hcode]
  · intro n hn d hd
    rcases List.mem_append.mp hn with h | h
    · rcases List.mem_append.mp h with h2 | h2
      · exact hstab d 0 (hInv.spawnDeps n h2 d hd)
      · rw [List.mem_map] at h2
        obtain ⟨nb, _, heq⟩ := h2
        cases heq
    · rw [List.mem_map] at h
      obtain ⟨nb, _, heq⟩ := h
      cases heq

theorem guard_decode (st : SchedState) (t : OTask)
    (hg : ¬ (st.running.any (fun p => p.1 == t.name) ||
        (alookup st.completed t.name).isSome ||
        st.blocked.any (fun p => p.1 == t.name)) = true) :
    t.name ∉ akeys st.running ∧ alookup st.completed t.name = none ∧
      t.name ∉ akeys st.blocked := by
  rw [Bool.not_eq_true] at hg
  simp only [Bool.or_eq_false_iff] at hg
  obtain ⟨⟨h1, h2⟩, h3⟩ := hg
  refine ⟨?_, ?_, ?_⟩
  · intro hm
    rw [(any_key_eq_mem st.running t.name).mpr hm] at h1
    exact Bool.noConfusion h1
  · rcases h : alookup st.completed t.name with _ | v
    · rfl
    · rw [h] at h2
      exact Bool.noConfusion h2
  · intro hm
    rw [(any_key_eq_mem st.blocked t.name).mpr hm] at h3
    exact Bool.noConfusion h3

theorem schedInv_startScan (dry : Bool) (env : Env) (tasks : List OTask)
    (hnd : (taskNames tasks).Nodup) :
    ∀ (l : List OTask) (st : SchedState), (∀ x ∈ l, x ∈ tasks) →
      SchedInv tasks st → SchedInv tasks (startScan dry env l st) := by
  intro l
  induction l with
  | nil => intro st _ hInv; exact hInv
  | cons t ts ih =>
    intro st hsub hInv
    have ht : t ∈ tasks := hsub t (List.mem_cons_self t ts)
    have hsub2 : ∀ x ∈ ts, x ∈ tasks :=
      fun x hx => hsub x (List.mem_cons_of_mem t hx)
    rw [startScan]
    split
    · exact ih st hsub2 hInv
    · rename_i hg
      obtain ⟨hrun, hcomp, hblk⟩ := guard_decode st t hg
      split
      · exact ih _ hsub2 (schedInv_block tasks st t ht hrun hcomp hblk hInv _)
      · split
        · rename_i hcs
          split
          · refine ih _ hsub2 (schedInv_dryComplete tasks st t hnd ht hrun
              hcomp hblk hcs hInv _ ?_)
            intro n hn
            rcases List.mem_append.mp hn with h | h
            · exact h
            · simp at h
          · exact ih _ hsub2 (schedInv_spawn tasks st t hnd ht hrun hcomp
              hblk hcs hInv _ _)
        · exact ih _ hsub2 hInv

theorem schedInv_tick (dry : Bool) (env : Env) (tasks : List OTask)
    (hnd : (taskNames tasks).Nodup) (st : SchedState)
    (hInv : SchedInv tasks st) : SchedInv tasks (tick dry env tasks st) := by
  unfold tick
  apply schedInv_reap tasks env
  apply schedInv_startScan dry env tasks hnd tasks _ (fun x hx => hx)
  exact ⟨hInv.compNodup, hInv.blkNodup, hInv.runNodup, hInv.compSub,
    hInv.blkSub, hInv.runSub, hInv.compBlkDisj, hInv.runCompDisj,
    hInv.runBlkDisj, hInv.compDeps, hInv.runDeps, hInv.pausedCode,
    hInv.spawnDeps⟩

theorem schedInv_loop (dry : Bool) (env : Env) (tasks : List OTask)
    (hnd : (taskNames tasks).Nodup) :
    ∀ (fuel : Nat) (st : SchedState), SchedInv tasks st →
      SchedInv tasks (schedLoop dry env tasks fuel st).1 ∧
        ((schedLoop dry env tasks fuel st).2 = none →
          tasks.length ≤
            (schedLoop dry env tasks fuel st).1.completed.length +
              (schedLoop dry env tasks fuel st).1.blocked.length) := by
  intro fuel
  induction fuel with
  | zero =>
    intro st hInv
    refine ⟨hInv, ?_⟩
    intro h
    simp [schedLoop] at h
  | succ f ih =>
    intro st hInv
    rw [schedLoop]
    split
    · have hInv2 := schedInv_tick dry env tasks hnd st hInv
      split
      · refine ⟨hInv2, ?_⟩
        intro h
        simp at h
      · exact ih _ hInv2
    · rename_i hge
      refine ⟨hInv, ?_⟩
      intro _
      show tasks.length ≤ st.completed.length + st.blocked.length
      omega

theorem schedInv_run (dry : Bool) (env : Env) (tasks : List OTask)
    (hnd : (taskNames tasks).Nodup) :
    SchedInv tasks (runSched dry env tasks).1 ∧
      ((runSched dry env tasks).2 = none →
        tasks.length ≤ (runSched dry env tasks).1.completed.length +
          (runSched dry env tasks).1.blocked.length) :=
  schedInv_loop dry env tasks hnd (tasks.length + 1) initState
    (schedInv_init tasks)

theorem covered_of_final (tasks : List OTask) (st : SchedState)
    (hnd : (taskNames tasks).Nodup) (hInv : SchedInv tasks st)
    (hlen : tasks.length ≤ st.completed.length + st.blocked.length) :
    ∀ n ∈ taskNames tasks, n ∈ akeys st.completed ∨ n ∈ akeys st.blocked := by
  intro n hn
  have hLnd : (akeys st.completed ++ akeys st.blocked).Nodup := by
    rw [List.nodup_append]
    exact ⟨hInv.compNodup, hInv.blkNodup,
      fun a ha hb => hInv.compBlkDisj a ha hb⟩
  have hsubF : (akeys st.completed ++ akeys st.blocked).toFinset ⊆
      (taskNames tasks).toFinset := by
    intro m hm
    rw [List.mem_toFinset] at hm ⊢
    rcases List.mem_append.mp hm with h | h
    · exact hInv.compSub m h
    · exact hInv.blkSub m h
  have hlen2 : (taskNames tasks).toFinset.card ≤
      (akeys st.completed ++ akeys st.blocked).toFinset.card := by
    rw [List.toFinset_card_of_nodup hLnd, List.toFinset_card_of_nodup hnd]
    have e1 : (taskNames tasks).length = tasks.length := List.length_map _ _
    have e2 : (akeys st.completed).length = st.completed.length :=
      List.length_map _ _
    have e3 : (akeys st.blocked).length = st.blocked.length :=
      List.length_map _ _
    rw [List.length_append, e1, e2, e3]
    exact hlen
  have heq := Finset.eq_of_subset_of_card_le hsubF hlen2
  have hmem : n ∈ (akeys st.completed ++ akeys st.blocked).toFinset := by
    rw [heq]
    exact List.mem_toFinset.mpr hn
  exact List.mem_append.mp (List.mem_toFinset.mp hmem)

theorem final_blocked_of_failed_dep (dry : Bool) (env : Env)
    (tasks : List OTask) (hnd : (taskNames tasks).Nodup)
    (hout : (runSched dry env tasks).2 = none) :
    ∀ t ∈ tasks,
      (∃ d ∈ t.depends_on, depFailed (runSched dry env tasks).1 d = true) →
      t.name ∈ akeys (runSched dry env tasks).1.blocked := by
  rintro t ht ⟨d, hd, hdf⟩
  obtain ⟨hInv, hcov⟩ := schedInv_run dry env tasks hnd
  have hcover := covered_of_final tasks _ hnd hInv (hcov hout) t.name
    (List.mem_map.mpr ⟨t, ht, rfl⟩)
  rcases hcover with hc | hb
  · exfalso
    have hdep0 := hInv.compDeps t.name hc d
      (by rw [depsOf_eq tasks t hnd ht]; exact hd)
    unfold depFailed at hdf
    rw [hdep0] at hdf
    simp only [bne_self_eq_false, Bool.or_false] at hdf
    have hdmem : d ∈ akeys (runSched dry env tasks).1.blocked :=
      (any_key_eq_mem _ _).mp hdf
    have hdc : d ∈ akeys (runSched dry env tasks).1.completed :=
      alookup_some_mem _ _ _ hdep0
    exact hInv.compBlkDisj d hdc hdmem
  · exact hb

theorem startScan_blocked_mono (dry : Bool) (env : Env) :
    ∀ (l : List OTask) (st : SchedState) (n : String) (c : List String),
      alookup st.blocked n = some c →
      alookup (startScan dry env l st).blocked n = some c := by
  intro l
  induction l with
  | nil => intro st n c h; exact h
  | cons t ts ih =>
    intro st n c h
    rw [startScan]
    split
    · exact ih st n c h
    · split
      · exact ih _ n c (alookup_append_of_some _ _ _ _ h)
      · split
        · split
          · exact ih _ n c h
          · exact ih _ n c h
        · exact ih _ n c h

theorem depFailed_mono (st st2 : SchedState)
    (hblk : ∀ m ∈ akeys st.blocked, m ∈ akeys st2.blocked)
    (hcomp : ∀ (m : String) (v : Int), alookup st.completed m = some v →
      alookup st2.completed m = some v)
    (d : String) (h : depFailed st d = true) : depFailed st2 d = true := by
  unfold depFailed at h ⊢
  rw [Bool.or_eq_true] at h ⊢
  rcases h with h1 | h2
  · left
    exact (any_key_eq_mem _ _).mpr (hblk d ((any_key_eq_mem _ _).mp h1))
  · rcases hv : alookup st.completed d with _ | v
    · rw [hv] at h2
      exact absurd h2 (by simp)
    · rw [hv] at h2
      right
      rw [hcomp d v hv]
      exact h2

theorem startScan_blocks (dry : Bool) (env : Env) :
    ∀ (l : List OTask) (st : SchedState) (t : OTask),
      (taskNames l).Nodup → t ∈ l →
      t.name ∉ akeys st.running →
      alookup st.completed t.name = none →
      alookup st.blocked t.name = none →
      (∃ d ∈ t.depends_on, depFailed st d = true) →
      ∃ cause, alookup (startScan dry env l st).blocked t.name = some cause ∧
        ∀ d ∈ t.depends_on, depFailed st d = true → d ∈ cause := by
  intro l
  induction l with
  | nil => intro st t _ ht; cases ht
  | cons u rest ih =>
    intro st t hnd ht hrun hcomp hblk hfail
    have hnds : (∀ x ∈ rest, ¬ x.name = u.name) ∧ (taskNames rest).Nodup := by
      simpa [taskNames] using hnd
    rw [startScan]
    rcases List.mem_cons.mp ht with hcase | hmem
    · subst hcase
      have hguard : (st.running.any (fun p => p.1 == t.name) ||
          (alookup st.completed t.name).isSome ||
          st.blocked.any (fun p => p.1 == t.name)) = false := by
        simp only [Bool.or_eq_false_iff]
        refine ⟨⟨?_, ?_⟩, ?_⟩
        · rcases hh : st.running.any (fun p => p.1 == t.name) with _ | _
          · rfl
          · exact absurd ((any_key_eq_mem _ _).mp hh) hrun
        · rw [hcomp]
          rfl
        · rcases hh : st.blocked.any (fun p => p.1 == t.name) with _ | _
          · rfl
          · exact absurd ((any_key_eq_mem _ _).mp hh)
              ((alookup_none_iff _ _).mp hblk)
      rw [hguard]
      have hne : (t.depends_on.filter (fun d => depFailed st d)).isEmpty
          = false := by
        obtain ⟨d, hd, hdf⟩ := hfail
        rcases hemp : t.depends_on.filter (fun d => depFailed st d) with _ | _
        · exact absurd (hemp ▸ List.mem_filter.mpr ⟨hd, hdf⟩)
            (List.not_mem_nil d)
        · rfl
      rw [hne]
      simp only [Bool.false_eq_true, if_false, Bool.not_false, if_true]
      refine ⟨t.depends_on.filter (fun d => depFailed st d), ?_, ?_⟩
      · apply startScan_blocked_mono
        exact alookup_append_single_self _ _ _ hblk
      · intro d hd hdf
        exact List.mem_filter.mpr ⟨hd, hdf⟩
    · have hname : u.name ≠ t.name := fun he => hnds.1 t hmem he.symm
      split
      · exact ih st t hnds.2 hmem hrun hcomp hblk hfail
      · split
        · have hblkmono : ∀ m ∈ akeys st.blocked, m ∈ akeys (st.blocked ++
              [(u.name, u.depends_on.filter (fun d => depFailed st d))]) := by
            intro m hm
            rw [akeys_append]
            exact List.mem_append_left _ hm
          have hmono := depFailed_mono st { st with
              blocked := st.blocked ++
                [(u.name, u.depends_on.filter (fun d => depFailed st d))],
              progress := true } hblkmono (fun m v hv => hv)
          obtain ⟨d0, hd0, hdf0⟩ := hfail
          obtain ⟨cause, hc1, hc2⟩ := ih { st with
              blocked := st.blocked ++
                [(u.name, u.depends_on.filter (fun d => depFailed st d))],
              progress := true } t hnds.2 hmem hrun hcomp
            (by
              show alookup (st.blocked ++
                [(u.name, u.depends_on.filter (fun d => depFailed st d))])
                  t.name = none
              rw [alookup_append_single_ne _ _ _ _ hname]
              exact hblk)
            ⟨d0, hd0, hmono d0 hdf0⟩
          exact ⟨cause, hc1, fun d hd hdf => hc2 d hd (hmono d hdf)⟩
        · split
          · split
            · have hmono := depFailed_mono st { st with
                  trace := st.trace ++ [SchedAction.startEvent u.name
                    u.interactive (u.interactive && env.markerBefore u.name)],
                  completed := st.completed ++ [(u.name, 0)],
                  progress := true } (fun m hm => hm)
                (fun m v hv => alookup_append_of_some _ _ _ _ hv)
              obtain ⟨d0, hd0, hdf0⟩ := hfail
              obtain ⟨cause, hc1, hc2⟩ := ih { st with
                  trace := st.trace ++ [SchedAction.startEvent u.name
                    u.interactive (u.interactive && env.markerBefore u.name)],
                  completed := st.completed ++ [(u.name, 0)],
                  progress := true } t hnds.2 hmem hrun
                (by
                  show alookup (st.completed ++ [(u.name, (0 : Int))]) t.name
                    = none
                  rw [alookup_append_single_ne _ _ _ _ hname]
                  exact hcomp)
                hblk ⟨d0, hd0, hmono d0 hdf0⟩
              exact ⟨cause, hc1, fun d hd hdf => hc2 d hd (hmono d hdf)⟩
            · refine ih { st with
                  trace := st.trace ++ [SchedAction.startEvent u.name
                    u.interactive (u.interactive && env.markerBefore u.name),
                    SchedAction.provision u.name, SchedAction.spawn u.name],
                  running := st.running ++ [(u.name, u.interactive)],
                  progress := true } t hnds.2 hmem ?_ hcomp hblk hfail
              show t.name ∉ akeys (st.running ++ [(u.name, u.interactive)])
              rw [akeys_append]
              intro hm
              rcases List.mem_append.mp hm with h2 | h2
              · exact hrun h2
              · simp [akeys] at h2
                exact hname h2.symm
          · exact ih st t hnds.2 hmem hrun hcomp hblk hfail

theorem tick_blocks (dry : Bool) (env : Env) (tasks : List OTask)
    (hnd : (taskNames tasks).Nodup) (st : SchedState) (t : OTask)
    (ht : t ∈ tasks)
    (hrun : t.name ∉ akeys st.running)
    (hcomp : alookup st.completed t.name = none)
    (hblk : alookup st.blocked t.name = none)
    (hfail : ∃ d ∈ t.depends_on, depFailed st d = true) :
    ∃ cause, alookup (tick dry env tasks st).blocked t.name = some cause ∧
      ∀ d ∈ t.depends_on, depFailed st d = true → d ∈ cause := by
  obtain ⟨cause, hc1, hc2⟩ := startScan_blocks dry env tasks
    { st with progress := false } t hnd ht hrun hcomp hblk hfail
  exact ⟨cause, hc1, hc2⟩

/-- Claim C2: for the scenario [a; b depends on a; c depends on a] with a
exiting 7, b and c are blocked with a recorded as the failing dependency,
the summary statuses are FAIL (7) and BLOCKED (deps: a), and the process
exit code is nonzero.  In general, during a tick a pending task with a
blocked or nonzero-completed dependency becomes blocked, its recorded
cause containing every dependency already failing at the start of the
tick; and in the final state of a run that finished without a fatal
error, every task with a blocked-or-failed dependency is in the blocked
map — so blocking propagates transitively to dependents. -/
theorem C2_thm :
    (statusOf (runSched false envFail7 tasksABC).1 "a" = "FAIL (7)" ∧
      statusOf (runSched false envFail7 tasksABC).1 "b" = "BLOCKED (deps: a)" ∧
      statusOf (runSched false envFail7 tasksABC).1 "c" = "BLOCKED (deps: a)" ∧
      alookup (runSched false envFail7 tasksABC).1.blocked "b" = some ["a"] ∧
      alookup (runSched false envFail7 tasksABC).1.blocked "c" = some ["a"] ∧
      processExit (runSched false envFail7 tasksABC).1
        (runSched false envFail7 tasksABC).2 ≠ 0) ∧
    (∀ (dry : Bool) (env : Env) (tasks : List OTask) (st : SchedState)
        (t : OTask), (taskNames tasks).Nodup → t ∈ tasks →
      t.name ∉ akeys st.running →
      alookup st.completed t.name = none →
      alookup st.blocked t.name = none →
      (∃ d ∈ t.depends_on, depFailed st d = true) →
      ∃ cause, alookup (tick dry env tasks st).blocked t.name = some cause ∧
        ∀ d ∈ t.depends_on, depFailed st d = true → d ∈ cause) ∧
    (∀ (dry : Bool) (env : Env) (tasks : List OTask),
      (taskNames tasks).Nodup → (runSched dry env tasks).2 = none →
      ∀ t ∈ tasks,
        (∃ d ∈ t.depends_on, depFailed (runSched dry env tasks).1 d = true) →
        t.name ∈ akeys (runSched dry env tasks).1.blocked) :=
  ⟨by decide,
    fun dry env tasks st t hnd ht h1 h2 h3 h4 =>
      tick_blocks dry env tasks hnd st t ht h1 h2 h3 h4,
    fun dry env tasks hnd hout =>
      final_blocked_of_failed_dep dry env tasks hnd hout⟩

/-- A scheduler state in which a has completed with exit 7 and nothing
else has happened yet. -/
def stA7 : SchedState :=
  { running := [], completed := [("a", 7)], blocked := [], paused := [],
    trace := [], progress := false }

/-- Witness for C2_thm: the tick-level blocking rule applied to a state
where a has completed with 7 and b is pending, and the final-state rule
applied to the three-task run. -/
theorem C2_witness :
    (∃ cause,
      alookup (tick false envFail7 tasksABC stA7).blocked
        (mkTask "b" ["a"] false).name = some cause ∧
      ∀ d ∈ (mkTask "b" ["a"] false).depends_on,
        depFailed stA7 d = true → d ∈ cause) ∧
    (mkTask "b" ["a"] false).name ∈
      akeys (runSched false envFail7 tasksABC).1.blocked :=
  ⟨C2_thm.2.1 false envFail7 tasksABC stA7
      (mkTask "b" ["a"] false) (by decide) (by decide) (by decide)
      (by decide) (by decide) ⟨"a", by decide, by decide⟩,
    C2_thm.2.2 false envFail7 tasksABC (by decide) (by decide)
      (mkTask "b" ["a"] false) (by decide) ⟨"a", by decide, by decide⟩⟩

/-- Tasks for the C10 counterexample: e fails, f succeeds, t depends on
e and d, and the interactive task d (which depends on f) pauses. -/
def tasksEFTD : List OTask :=
  [mkTask "e" [] false, mkTask "f" [] false, mkTask "t" ["e", "d"] false,
    mkTask "d" ["f"] true]

/-- Environment for the C10 counterexample: e exits 7, d leaves a pause
marker, everything else exits 0. -/
def envEFTD : Env :=
  { ret := fun n => if n = "e" then 7 else 0,
    markerBefore := fun _ => false, markerAfter := fun n => n = "d" }

/-- Claim C10 — counterexample.  The claim states every dependent of a
paused task is transitioned to blocked with the paused task named as its
cause.  In this run d pauses (recorded completed with code 2), t depends
on d, and t is indeed blocked — but its recorded cause is ["e"] (the
dependency that had already failed when t was blocked), which does not
name the paused task d. -/
theorem C10_counterexample :
    "d" ∈ (runSched false envEFTD tasksEFTD).1.paused ∧
    alookup (runSched false envEFTD tasksEFTD).1.completed "d" = some 2 ∧
    "d" ∈ (mkTask "t" ["e", "d"] false).depends_on ∧
    (mkTask "t" ["e", "d"] false) ∈ tasksEFTD ∧
    alookup (runSched false envEFTD tasksEFTD).1.blocked "t" = some ["e"] ∧
    "d" ∉ ["e"] := by decide

/-- Claim C10 — amended: a paused task is recorded completed with the
nonzero code 2; a task depending on a paused task is never spawned (no
spawn action for it ever enters the trace); in a run that finished
without a fatal error every such dependent ends up blocked; and at tick
level, a still-pending dependent of an already-paused task is blocked
with the paused task among its recorded causes.  The paused task is
only guaranteed to be named in the cause when it had already paused
when the dependent was blocked (otherwise the cause records the other
failing dependencies, as the counterexample shows). -/
theorem C10_thm :
    (∀ (dry : Bool) (env : Env) (tasks : List OTask),
      (taskNames tasks).Nodup →
      ∀ n ∈ (runSched dry env tasks).1.paused,
        alookup (runSched dry env tasks).1.completed n = some 2) ∧
    (∀ (dry : Bool) (env : Env) (tasks : List OTask),
      (taskNames tasks).Nodup →
      ∀ t ∈ tasks, ∀ d ∈ t.depends_on,
        d ∈ (runSched dry env tasks).1.paused →
        SchedAction.spawn t.name ∉ (runSched dry env tasks).1.trace) ∧
    (∀ (dry : Bool) (env : Env) (tasks : List OTask),
      (taskNames tasks).Nodup → (runSched dry env tasks).2 = none →
      ∀ t ∈ tasks, ∀ d ∈ t.depends_on,
        d ∈ (runSched dry env tasks).1.paused →
        t.name ∈ akeys (runSched dry env tasks).1.blocked) ∧
    (∀ (dry : Bool) (env : Env) (tasks : List OTask) (st : SchedState)
        (t : OTask) (d : String),
      (taskNames tasks).Nodup → SchedInv tasks st → t ∈ tasks →
      d ∈ t.depends_on → d ∈ st.paused →
      t.name ∉ akeys st.running →
      alookup st.completed t.name = none →
      alookup st.blocked t.name = none →
      ∃ cause, alookup (tick dry env tasks st).blocked t.name = some cause ∧
        d ∈ cause) := by
  have hdf : ∀ (st : SchedState) (d : String),
      alookup st.completed d = some 2 → depFailed st d = true := by
    intro st d h
    unfold depFailed
    rw [h]
    simp
  refine ⟨?_, ?_, ?_, ?_⟩
  · intro dry env tasks hnd n hn
    exact (schedInv_run dry env tasks hnd).1.pausedCode n hn
  · intro dry env tasks hnd t ht d hd hp hsp
    have hInv := (schedInv_run dry env tasks hnd).1
    have h0 := hInv.spawnDeps t.name hsp d
      (by rw [depsOf_eq tasks t hnd ht]; exact hd)
    have h2 := hInv.pausedCode d hp
    rw [h0] at h2
    simp at h2
  · intro dry env tasks hnd hout t ht d hd hp
    have hInv := (schedInv_run dry env tasks hnd).1
    exact final_blocked_of_failed_dep dry env tasks hnd hout t ht
      ⟨d, hd, hdf _ d (hInv.pausedCode d hp)⟩
  · intro dry env tasks st t d hnd hInv ht hd hp hrun hcomp hblk
    have hdf2 : depFailed st d = true := hdf st d (hInv.pausedCode d hp)
    obtain ⟨cause, hc1, hc2⟩ := tick_blocks dry env tasks hnd st t ht hrun
      hcomp hblk ⟨d, hd, hdf2⟩
    exact ⟨cause, hc1, hc2 d hd hdf2⟩

/-- Tasks for the C10 witness: p pauses, q depends on p. -/
def tasksPQ : List OTask :=
  [mkTask "p" [] true, mkTask "q" ["p"] false]

/-- Environment in which p leaves a pause marker. -/
def envPQ : Env :=
  { ret := fun _ => 0, markerBefore := fun _ => false,
    markerAfter := fun n => n = "p" }

/-- Witness for C10_thm: after one tick p is paused with code 2; q never
spawns, ends blocked, and the next tick blocks it naming p. -/
theorem C10_witness :
    alookup (runSched false envPQ tasksPQ).1.completed "p" = some 2 ∧
    SchedAction.spawn (mkTask "q" ["p"] false).name ∉
      (runSched false envPQ tasksPQ).1.trace ∧
    (mkTask "q" ["p"] false).name ∈
      akeys (runSched false envPQ tasksPQ).1.blocked ∧
    (∃ cause, alookup (tick false envPQ tasksPQ
        (tick false envPQ tasksPQ initState)).blocked
        (mkTask "q" ["p"] false).name = some cause ∧ "p" ∈ cause) :=
  ⟨C10_thm.1 false envPQ tasksPQ (by decide) "p" (by decide),
    C10_thm.2.1 false envPQ tasksPQ (by decide) (mkTask "q" ["p"] false)
      (by decide) "p" (by decide) (by decide),
    C10_thm.2.2.1 false envPQ tasksPQ (by decide) (by decide)
      (mkTask "q" ["p"] false) (by decide) "p" (by decide) (by decide),
    C10_thm.2.2.2 false envPQ tasksPQ (tick false envPQ tasksPQ initState)
      (mkTask "q" ["p"] false) "p" (by decide)
      (schedInv_tick false envPQ tasksPQ (by decide) initState
        (schedInv_init tasksPQ))
      (by decide) (by decide) (by decide) (by decide) (by decide) (by decide)⟩

/-- Invariant of a dry-run scheduler state: nothing ever runs, blocks or
pauses, every completion has exit code 0, and the trace consists of
task_start events only (no provisioning, no spawn, no task_end). -/
structure DryInv (st : SchedState) : Prop where
  runEmpty : st.running = []
  blkEmpty : st.blocked = []
  pausedEmpty : st.paused = []
  compZero : ∀ p ∈ st.completed, p.2 = 0
  traceStarts : ∀ a ∈ st.trace, ∃ n b r, a = SchedAction.startEvent n b r

/-- In a state with no blocked tasks and only zero exit codes, no
dependency tests as failed. -/
theorem depFailed_false_of_clean (st : SchedState)
    (hblk : st.blocked = []) (hzero : ∀ p ∈ st.completed, p.2 = 0)
    (d : String) : depFailed st d = false := by
  unfold depFailed
  rw [hblk]
  simp only [List.any_nil, Bool.false_or]
  rcases hv : alookup st.completed d with _ | v
  · rfl
  · have h0 := hzero (d, v) (alookup_pair_mem _ _ _ hv)
    simp at h0
    simp [h0]

theorem clean_filter_nil (st : SchedState) (hblk : st.blocked = [])
    (hzero : ∀ p ∈ st.completed, p.2 = 0) (deps : List String) :
    deps.filter (fun d => depFailed st d) = [] := by
  rw [List.filter_eq_nil_iff]
  intro d _
  rw [depFailed_false_of_clean st hblk hzero d]
  simp

theorem dryInv_startScan (env : Env) (l : List OTask) :
    ∀ st : SchedState, DryInv st → DryInv (startScan true env l st) := by
  induction l with
  | nil => intro st hInv; exact hInv
  | cons u rest ih =>
    intro st hInv
    rw [startScan]
    split
    · exact ih st hInv
    · split
      · rename_i hcond
        rw [clean_filter_nil st hInv.blkEmpty hInv.compZero] at hcond
        simp at hcond
      · split
        · split
          · refine ih _ ⟨hInv.runEmpty, hInv.blkEmpty, hInv.pausedEmpty,
              ?_, ?_⟩
            · intro p hp
              rcases List.mem_append.mp hp with h | h
              · exact hInv.compZero p h
              · simp at h
                rw [h]
            · intro a ha
              rcases List.mem_append.mp ha with h | h
              · exact hInv.traceStarts a h
              · simp at h
                exact ⟨u.name, u.interactive,
                  u.interactive && env.markerBefore u.name, h⟩
          · rename_i hdry
            exact absurd rfl hdry
        · exact ih _ hInv

theorem dryInv_reap (env : Env) (st : SchedState) (hInv : DryInv st) :
    DryInv (reap env st) := by
  unfold reap
  rw [hInv.runEmpty]
  exact ⟨rfl, hInv.blkEmpty, by simpa using hInv.pausedEmpty,
    by simpa using hInv.compZero, by simpa using hInv.traceStarts⟩

theorem dryInv_loop (env : Env) (tasks : List OTask) :
    ∀ (fuel : Nat) (st : SchedState), DryInv st →
      DryInv (schedLoop true env tasks fuel st).1 := by
  intro fuel
  induction fuel with
  | zero => intro st hInv; exact hInv
  | succ f ih =>
    intro st hInv
    rw [schedLoop]
    split
    · have hInv2 : DryInv (tick true env tasks st) := by
        unfold tick
        apply dryInv_reap
        apply dryInv_startScan
        exact ⟨hInv.runEmpty, hInv.blkEmpty, hInv.pausedEmpty,
          hInv.compZero, hInv.traceStarts⟩
      split
      · exact hInv2
      · exact ih _ hInv2
    · exact hInv

theorem dryInv_run (env : Env) (tasks : List OTask) :
    DryInv (runSched true env tasks).1 :=
  dryInv_loop env tasks (tasks.length + 1) initState
    ⟨rfl, rfl, rfl, by simp [initState], by simp [initState]⟩

/-- Invariant of a run in which every child exits 0 and no marker ever
appears: nothing blocks, nothing pauses, all completions are 0. -/
structure ZeroInv (st : SchedState) : Prop where
  blkEmpty : st.blocked = []
  pausedEmpty : st.paused = []
  compZero : ∀ p ∈ st.completed, p.2 = 0

theorem reapPaused_zeroEnv (nb : String × Bool) :
    reapPaused zeroEnv nb = false := by
  simp [reapPaused, zeroEnv]

theorem reapCode_zeroEnv (nb : String × Bool) :
    reapCode zeroEnv nb = 0 := by
  unfold reapCode
  rw [reapPaused_zeroEnv]
  rfl

theorem zeroInv_startScan (dry : Bool) (l : List OTask) :
    ∀ st : SchedState, ZeroInv st → ZeroInv (startScan dry zeroEnv l st) := by
  induction l with
  | nil => intro st hInv; exact hInv
  | cons u rest ih =>
    intro st hInv
    rw [startScan]
    split
    · exact ih st hInv
    · split
      · rename_i hcond
        rw [clean_filter_nil st hInv.blkEmpty hInv.compZero] at hcond
        simp at hcond
      · split
        · split
          · refine ih _ ⟨hInv.blkEmpty, hInv.pausedEmpty, ?_⟩
            intro p hp
            rcases List.mem_append.mp hp with h | h
            · exact hInv.compZero p h
            · simp at h
              rw [h]
          · exact ih _ ⟨hInv.blkEmpty, hInv.pausedEmpty, hInv.compZero⟩
        · exact ih _ hInv

theorem zeroInv_reap (st : SchedState) (hInv : ZeroInv st) :
    ZeroInv (reap zeroEnv st) := by
  unfold reap
  refine ⟨hInv.blkEmpty, ?_, ?_⟩
  · have : st.running.filter (fun nb => reapPaused zeroEnv nb) = [] := by
      rw [List.filter_eq_nil_iff]
      intro nb _
      rw [reapPaused_zeroEnv nb]
      simp
    rw [this, hInv.pausedEmpty]
    rfl
  · intro p hp
    rcases List.mem_append.mp hp with h | h
    · exact hInv.compZero p h
    · rw [List.mem_map] at h
      obtain ⟨nb, _, heq⟩ := h
      rw [← heq]
      exact reapCode_zeroEnv nb

theorem zeroInv_loop (dry : Bool) (tasks : List OTask) :
    ∀ (fuel : Nat) (st : SchedState), ZeroInv st →
      ZeroInv (schedLoop dry zeroEnv tasks fuel st).1 := by
  intro fuel
  induction fuel with
  | zero => intro st hInv; exact hInv
  | succ f ih =>
    intro st hInv
    rw [schedLoop]
    split
    · have hInv2 : ZeroInv (tick dry zeroEnv tasks st) := by
        unfold tick
        apply zeroInv_reap
        apply zeroInv_startScan
        exact ⟨hInv.blkEmpty, hInv.pausedEmpty, hInv.compZero⟩
      split
      · exact hInv2
      · exact ih _ hInv2
    · exact hInv

theorem zeroInv_run (dry : Bool) (tasks : List OTask) :
    ZeroInv (runSched dry zeroEnv tasks).1 :=
  zeroInv_loop dry tasks (tasks.length + 1) initState
    ⟨rfl, rfl, by simp [initState]⟩

theorem statusOf_ok (st : SchedState) (n : String)
    (hmem : n ∈ akeys st.completed)
    (hzero : ∀ p ∈ st.completed, p.2 = 0)
    (hpause : st.paused = []) : statusOf st n = "OK" := by
  unfold statusOf
  rcases h : alookup st.completed n with _ | code
  · exact absurd hmem ((alookup_none_iff _ _).mp h)
  · have hc : code = 0 := hzero (n, code) (alookup_pair_mem _ _ _ h)
    subst hc
    rw [hpause]
    rfl

theorem summary_all_ok (tasks : List OTask) (st : SchedState)
    (hnd : (taskNames tasks).Nodup) (hInv : SchedInv tasks st)
    (hlen : tasks.length ≤ st.completed.length + st.blocked.length)
    (hblk : st.blocked = []) (hzero : ∀ p ∈ st.completed, p.2 = 0)
    (hpause : st.paused = []) :
    summaryLines st tasks = tasks.map (fun t => "- " ++ t.name ++ ": OK") := by
  unfold summaryLines
  apply List.map_congr_left
  intro t ht
  have hcover := covered_of_final tasks st hnd hInv hlen t.name
    (List.mem_map.mpr ⟨t, ht, rfl⟩)
  rcases hcover with hc | hb
  · rw [statusOf_ok st t.name hc hzero hpause, String.append_assoc]
    rfl
  · rw [hblk] at hb
    simp [akeys] at hb

/-- Whether an action is a task_end event. -/
def isEndAction : SchedAction → Bool
  | SchedAction.endEvent _ _ _ => true
  | _ => false

/-- Claim C9 — counterexample.  The claim states the dry-run event log
contains task_start and task_end records of the same shape as a real
run.  For the single-task list, the real run's trace contains a
task_end event but the dry run emits none: dry-run tasks are completed
inline in the start scan and never enter the running map, and task_end
events are only written when reaping the running map. -/
theorem C9_counterexample :
    (runSched true zeroEnv tasksSingle).1.trace.any isEndAction = false ∧
    (runSched false zeroEnv tasksSingle).1.trace.any isEndAction = true ∧
    summaryLines (runSched true zeroEnv tasksSingle).1 tasksSingle =
      summaryLines (runSched false zeroEnv tasksSingle).1 tasksSingle := by
  decide

/-- Claim C9 — amended: a dry run performs no workspace provisioning and
no spawning and emits no task_end events — its trace consists solely of
task_start events of the same shape as a real run's — and whenever both
the dry run and the real all-zero run finish without a fatal error,
their summaries classify every task identically as OK. -/
theorem C9_thm (tasks : List OTask) (env : Env)
    (hnd : (taskNames tasks).Nodup) :
    (∀ a ∈ (runSched true env tasks).1.trace,
      ∃ n b r, a = SchedAction.startEvent n b r) ∧
    (∀ n : String,
      SchedAction.provision n ∉ (runSched true env tasks).1.trace) ∧
    (∀ n : String, SchedAction.spawn n ∉ (runSched true env tasks).1.trace) ∧
    (∀ (n : String) (c : Int) (p : Bool),
      SchedAction.endEvent n c p ∉ (runSched true env tasks).1.trace) ∧
    ((runSched true env tasks).2 = none →
      summaryLines (runSched true env tasks).1 tasks =
        tasks.map (fun t => "- " ++ t.name ++ ": OK")) ∧
    ((runSched false zeroEnv tasks).2 = none →
      summaryLines (runSched false zeroEnv tasks).1 tasks =
        tasks.map (fun t => "- " ++ t.name ++ ": OK")) := by
  have hdry := dryInv_run env tasks
  refine ⟨hdry.traceStarts, ?_, ?_, ?_, ?_, ?_⟩
  · intro n hmem
    obtain ⟨m, b, r, heq⟩ := hdry.traceStarts _ hmem
    cases heq
  · intro n hmem
    obtain ⟨m, b, r, heq⟩ := hdry.traceStarts _ hmem
    cases heq
  · intro n c p hmem
    obtain ⟨m, b, r, heq⟩ := hdry.traceStarts _ hmem
    cases heq
  · intro hout
    obtain ⟨hInv, hcov⟩ := schedInv_run true env tasks hnd
    exact summary_all_ok tasks _ hnd hInv (hcov hout) hdry.blkEmpty
      hdry.compZero hdry.pausedEmpty
  · intro hout
    obtain ⟨hInv, hcov⟩ := schedInv_run false zeroEnv tasks hnd
    have hzero := zeroInv_run false tasks
    exact summary_all_ok tasks _ hnd hInv (hcov hout) hzero.blkEmpty
      hzero.compZero hzero.pausedEmpty

/-- Witness for C9_thm at the three-task list: both the dry run and the
real all-zero run produce the all-OK summary. -/
theorem C9_witness :
    summaryLines (runSched true zeroEnv tasksABC).1 tasksABC =
      tasksABC.map (fun t => "- " ++ t.name ++ ": OK") ∧
    summaryLines (runSched false zeroEnv tasksABC).1 tasksABC =
      tasksABC.map (fun t => "- " ++ t.name ++ ": OK") :=
  ⟨(C9_thm tasksABC zeroEnv (by decide)).2.2.2.2.1 (by decide),
    (C9_thm tasksABC zeroEnv (by decide)).2.2.2.2.2 (by decide)⟩

theorem dictGet_eq_alookup : ∀ (kvs : PyDictL) (k : String),
    dictGet kvs k = alookup kvs k := by
  intro kvs k
  induction kvs with
  | nil => rfl
  | cons p rest ih =>
    obtain ⟨k2, v2⟩ := p
    by_cases hk : k2 == k
    · simp [dictGet, alookup, hk]
    · simp [dictGet, alookup, hk]
      exact ih

theorem dictHas_iff_mem (kvs : PyDictL) (k : String) :
    dictHas kvs k = true ↔ k ∈ akeys kvs := by
  unfold dictHas
  exact any_key_eq_mem kvs k

theorem dictHas_of_get_some (kvs : PyDictL) (k : String) (v : PyVal)
    (h : dictGet kvs k = some v) : dictHas kvs k = true := by
  rw [dictHas_iff_mem]
  rw [dictGet_eq_alookup] at h
  exact alookup_some_mem _ _ _ h

theorem dictHas_false_of_get_none (kvs : PyDictL) (k : String)
    (h : dictGet kvs k = none) : dictHas kvs k = false := by
  rcases hh : dictHas kvs k with _ | _
  · rfl
  · rw [dictGet_eq_alookup] at h
    exact absurd ((dictHas_iff_mem kvs k).mp hh)
      ((alookup_none_iff _ _).mp h)

theorem alookup_overwrite_self (kvs : PyDictL) (k : String) (v : PyVal)
    (h : dictHas kvs k = true) :
    dictGet (dictOverwrite kvs k v) k = some v := by
  induction kvs with
  | nil => simp [dictHas] at h
  | cons p rest ih =>
    obtain ⟨k2, v2⟩ := p
    by_cases hk : k2 = k
    · subst hk
      simp [dictOverwrite, dictGet]
    · have hkb : (k2 == k) = false := by simp [hk]
      have hrest : dictHas rest k = true := by
        simpa [dictHas, hkb] using h
      simp [dictOverwrite, dictGet, hkb]
      exact ih hrest

theorem alookup_overwrite_other (kvs : PyDictL) (k k2 : String) (v : PyVal)
    (hne : k2 ≠ k) :
    dictGet (dictOverwrite kvs k v) k2 = dictGet kvs k2 := by
  induction kvs with
  | nil => rfl
  | cons p rest ih =>
    obtain ⟨k3, v3⟩ := p
    by_cases hk : k3 = k
    · subst hk
      have hne2 : (k3 == k2) = false := by
        simp
        exact fun he => hne he.symm
      simp [dictOverwrite, dictGet, hne2]
      exact ih
    · have hkb : (k3 == k) = false := by simp [hk]
      by_cases hk2 : k3 = k2
      · subst hk2
        simp [dictOverwrite, dictGet, hkb]
      · have hk2b : (k3 == k2) = false := by simp [hk2]
        simp [dictOverwrite, dictGet, hkb, hk2b]
        exact ih

theorem dictGet_set_self (kvs : PyDictL) (k : String) (v : PyVal) :
    dictGet (dictSet kvs k v) k = some v := by
  unfold dictSet
  by_cases h : dictHas kvs k
  · rw [if_pos h]
    exact alookup_overwrite_self kvs k v h
  · rw [if_neg h]
    rw [dictGet_eq_alookup]
    apply alookup_append_single_self
    rw [← dictGet_eq_alookup]
    rcases hg : dictGet kvs k with _ | w
    · rfl
    · exact absurd (dictHas_of_get_some kvs k w hg) h

theorem dictGet_set_other (kvs : PyDictL) (k k2 : String) (v : PyVal)
    (hne : k2 ≠ k) : dictGet (dictSet kvs k v) k2 = dictGet kvs k2 := by
  unfold dictSet
  by_cases h : dictHas kvs k
  · rw [if_pos h]
    exact alookup_overwrite_other kvs k k2 v hne
  · rw [if_neg h]
    rw [dictGet_eq_alookup, dictGet_eq_alookup kvs k2]
    exact alookup_append_single_ne kvs k2 k v (fun he => hne he.symm)

theorem dictGet_setDefault_other (kvs : PyDictL) (k k2 : String) (v : PyVal)
    (hne : k2 ≠ k) :
    dictGet (dictSetDefault kvs k v) k2 = dictGet kvs k2 := by
  unfold dictSetDefault
  by_cases h : dictHas kvs k
  · rw [if_pos h]
  · rw [if_neg h]
    rw [dictGet_eq_alookup, dictGet_eq_alookup kvs k2]
    exact alookup_append_single_ne kvs k2 k v (fun he => hne he.symm)

theorem dictGet_setDefault_none (kvs : PyDictL) (k : String) (v : PyVal)
    (h : dictGet kvs k = none) :
    dictGet (dictSetDefault kvs k v) k = some v := by
  unfold dictSetDefault
  rw [if_neg (by rw [dictHas_false_of_get_none kvs k h]; exact Bool.noConfusion)]
  rw [dictGet_eq_alookup]
  apply alookup_append_single_self
  rw [← dictGet_eq_alookup]
  exact h

theorem dictSetDefault_of_some (kvs : PyDictL) (k : String) (v w : PyVal)
    (h : dictGet kvs k = some w) : dictSetDefault kvs k v = kvs := by
  unfold dictSetDefault
  rw [if_pos]
  rw [dictHas_of_get_some kvs k w h]

theorem nd_name (kvs : PyDictL) :
    dictGet (normalizedDict (.pyDict kvs)) "name" = dictGet kvs "name" := by
  unfold normalizedDict
  rw [dictGet_set_other _ _ _ _ (by decide : ("name" : String) ≠ "manual")]
  rw [dictGet_set_other _ _ _ _ (by decide : ("name" : String) ≠ "phase")]
  rw [dictGet_setDefault_other _ _ _ _
    (by decide : ("name" : String) ≠ "depends_on")]

theorem nd_dependsOn (kvs : PyDictL) :
    dictGet (normalizedDict (.pyDict kvs)) "depends_on" =
      some ((dictGet kvs "depends_on").getD (.pyList [])) := by
  unfold normalizedDict
  rw [dictGet_set_other _ _ _ _
    (by decide : ("depends_on" : String) ≠ "manual")]
  rw [dictGet_set_other _ _ _ _
    (by decide : ("depends_on" : String) ≠ "phase")]
  rcases hdep : dictGet kvs "depends_on" with _ | w
  · rw [dictGet_setDefault_none _ _ _ hdep]
    rfl
  · rw [dictSetDefault_of_some _ _ _ w hdep, hdep]
    rfl

theorem nd_deps (t : PyVal) (hv : validEntry t = true) :
    dictDeps (normalizedDict t) = entryDeps t := by
  match t with
  | .pyNone | .pyBool _ | .pyInt _ | .pyStr _ | .pyList _ =>
    simp [validEntry] at hv
  | .pyDict kvs =>
    simp only [validEntry, Bool.and_eq_true] at hv
    obtain ⟨⟨⟨⟨⟨h1, h2⟩, h3⟩, h4⟩, h5⟩, h6⟩ := hv
    rcases hdep : dictGet kvs "depends_on" with _ | w
    · have hl : dictDeps (normalizedDict (.pyDict kvs)) = [] := by
        unfold dictDeps
        rw [nd_dependsOn, hdep]
        rfl
      have hr : entryDeps (.pyDict kvs) = [] := by
        show (match dictGet kvs "depends_on" with
          | some (.pyList ds) => ds
          | _ => []) = []
        rw [hdep]
      rw [hl, hr]
    · rw [hdep] at h4
      rcases w with _ | _ | _ | _ | ds | _
      case pyList =>
        have hl : dictDeps (normalizedDict (.pyDict kvs)) = ds := by
          unfold dictDeps
          rw [nd_dependsOn, hdep]
          rfl
        have hr : entryDeps (.pyDict kvs) = ds := by
          show (match dictGet kvs "depends_on" with
            | some (.pyList ds) => ds
            | _ => []) = ds
          rw [hdep]
        rw [hl, hr]
      all_goals exact absurd h4 (by simp)

/-- A valid entry with an unseen name normalizes to its name and the
mutated dict. -/
theorem normalizeEntry_ok (byName : List (PyVal × PyDictL)) (kvs : PyDictL)
    (hv : validEntry (.pyDict kvs) = true)
    (hdup : byName.any (fun q => pyBeq ((dictGet kvs "name").getD .pyNone)
      q.1) = false) :
    normalizeEntry byName (.pyDict kvs) =
      .ok (entryName (.pyDict kvs), normalizedDict (.pyDict kvs)) := by
  simp only [validEntry, Bool.and_eq_true] at hv
  obtain ⟨⟨⟨⟨⟨h1, h2⟩, h3⟩, h4⟩, h5⟩, h6⟩ := hv
  have hph : dictGet (dictSetDefault kvs "depends_on" (.pyList []))
      "phase" = dictGet kvs "phase" :=
    dictGet_setDefault_other _ _ _ _
      (by decide : ("phase" : String) ≠ "depends_on")
  have hphmem : pyMem ((dictGet kvs "phase").getD (.pyStr "main"))
      phaseEnum = true := by
    rcases hp : dictGet kvs "phase" with _ | p
    · decide
    · rw [hp] at h5
      simpa using h5
  have hman : dictGet (dictSet (dictSetDefault kvs "depends_on" (.pyList []))
      "phase" ((dictGet kvs "phase").getD (.pyStr "main"))) "manual" =
      dictGet kvs "manual" := by
    rw [dictGet_set_other _ _ _ _
      (by decide : ("manual" : String) ≠ "phase")]
    exact dictGet_setDefault_other _ _ _ _
      (by decide : ("manual" : String) ≠ "depends_on")
  simp only [normalizeEntry, entryName, normalizedDict, h1, Bool.not_true,
    Bool.false_eq_true, if_false, hdup, h2, h3, hph]
  rcases hdep : dictGet kvs "depends_on" with _ | w
  · rw [dictGet_setDefault_none _ _ _ hdep]
    simp only [hph, hphmem, Bool.not_true, Bool.false_eq_true, if_false,
      hman]
    rcases hm : dictGet kvs "manual" with _ | m
    · rfl
    · rw [hm] at h6
      rcases m with _ | b | _ | _ | _ | _
      case pyBool => rfl
      all_goals exact absurd h6 (by simp)
  · rw [dictSetDefault_of_some _ _ _ w hdep]
    rw [hdep] at h4
    rcases w with _ | _ | _ | _ | ds | _
    case pyList =>
      rw [hdep]
      have hman2 : dictGet (dictSet kvs "phase"
          ((dictGet kvs "phase").getD (.pyStr "main"))) "manual" =
          dictGet kvs "manual" :=
        dictGet_set_other _ _ _ _
          (by decide : ("manual" : String) ≠ "phase")
      simp only [hph, hphmem, Bool.not_true, Bool.false_eq_true, if_false,
        hman, hman2]
      rcases hm : dictGet kvs "manual" with _ | m
      · rfl
      · rw [hm] at h6
        rcases m with _ | b | _ | _ | _ | _
        case pyBool => rfl
        all_goals exact absurd h6 (by simp)
    all_goals exact absurd h4 (by simp)

/-- A successful `normalizeEntry` implies the entry was shape-valid, its
name unseen, and the output is the name with the mutated dict. -/
theorem normalizeEntry_ok_inv (byName : List (PyVal × PyDictL)) (t : PyVal)
    (p : PyVal × PyDictL) (hok : normalizeEntry byName t = .ok p) :
    validEntry t = true ∧
    byName.any (fun q => pyBeq (entryName t) q.1) = false ∧
    p = (entryName t, normalizedDict t) := by
  match t with
  | .pyNone => exact Except.noConfusion hok
  | .pyBool b => exact Except.noConfusion hok
  | .pyInt n => exact Except.noConfusion hok
  | .pyStr s => exact Except.noConfusion hok
  | .pyList xs => exact Except.noConfusion hok
  | .pyDict kvs =>
    have hph : dictGet (dictSetDefault kvs "depends_on" (.pyList []))
        "phase" = dictGet kvs "phase" :=
      dictGet_setDefault_other _ _ _ _
        (by decide : ("phase" : String) ≠ "depends_on")
    have hman : dictGet (dictSet (dictSetDefault kvs "depends_on"
        (.pyList [])) "phase"
        ((dictGet (dictSetDefault kvs "depends_on" (.pyList []))
          "phase").getD (.pyStr "main"))) "manual" =
        dictGet kvs "manual" := by
      rw [dictGet_set_other _ _ _ _
        (by decide : ("manual" : String) ≠ "phase")]
      exact dictGet_setDefault_other _ _ _ _
        (by decide : ("manual" : String) ≠ "depends_on")
    simp only [normalizeEntry] at hok
    split at hok <;> try exact Except.noConfusion hok
    rename_i hname
    split at hok <;> try exact Except.noConfusion hok
    rename_i hdup
    split at hok <;> try exact Except.noConfusion hok
    rename_i hwk
    split at hok <;> try exact Except.noConfusion hok
    rename_i hpr
    split at hok <;> try exact Except.noConfusion hok
    rename_i xs hdepeq
    split at hok <;> try exact Except.noConfusion hok
    rename_i hpm
    have hdepraw : (match dictGet kvs "depends_on" with
        | none => true
        | some (PyVal.pyList _) => true
        | some _ => false) = true := by
      rcases hs : dictGet kvs "depends_on" with _ | w
      · rfl
      · rw [dictSetDefault_of_some _ _ _ w hs, hs] at hdepeq
        cases hdepeq
        rfl
    have hphraw : (match dictGet kvs "phase" with
        | none => true
        | some q => pyMem q phaseEnum) = true := by
      rw [hph] at hpm
      rcases hs : dictGet kvs "phase" with _ | q
      · rfl
      · rw [hs] at hpm
        simpa using hpm
    split at hok <;> try exact Except.noConfusion hok
    · rename_i b hmeq
      rw [hman] at hmeq
      refine ⟨?_, ?_, ?_⟩
      · simp only [validEntry, Bool.and_eq_true]
        exact ⟨⟨⟨⟨⟨by simpa using hname, by simpa using hwk⟩,
          by simpa using hpr⟩, hdepraw⟩, hphraw⟩, by rw [hmeq]⟩
      · simpa [entryName] using hdup
      · have hinj : p = ((dictGet kvs "name").getD .pyNone,
            dictSet (dictSet (dictSetDefault kvs "depends_on" (.pyList []))
              "phase" ((dictGet (dictSetDefault kvs "depends_on"
                (.pyList [])) "phase").getD (.pyStr "main")))
              "manual" (.pyBool b)) := by
          cases hok
          rfl
        rw [hinj]
        simp only [entryName, normalizedDict]
        rw [hman, hmeq]
        rfl
    · rename_i hmeq
      rw [hman] at hmeq
      refine ⟨?_, ?_, ?_⟩
      · simp only [validEntry, Bool.and_eq_true]
        exact ⟨⟨⟨⟨⟨by simpa using hname, by simpa using hwk⟩,
          by simpa using hpr⟩, hdepraw⟩, hphraw⟩, by rw [hmeq]⟩
      · simpa [entryName] using hdup
      · have hinj : p = ((dictGet kvs "name").getD .pyNone,
            dictSet (dictSet (dictSetDefault kvs "depends_on" (.pyList []))
              "phase" ((dictGet (dictSetDefault kvs "depends_on"
                (.pyList [])) "phase").getD (.pyStr "main")))
              "manual" (.pyBool false)) := by
          cases hok
          rfl
        rw [hinj]
        simp only [entryName, normalizedDict]
        rw [hman, hmeq]
        rfl

/-- The first normalization loop succeeds on a list of shape-valid
entries whose names (together with the accumulated keys) are pairwise
distinct, appending the mutated dicts in input order. -/
theorem normGo_ok (ts : List PyVal) :
    ∀ (byName : List (PyVal × PyDictL)) (ordered : List PyDictL),
    (∀ t ∈ ts, validEntry t = true) →
    (byName.map Prod.fst ++ ts.map entryName).Pairwise
      (fun a b => pyBeq b a = false) →
    normGo ts byName ordered =
      .ok (ordered ++ ts.map normalizedDict,
        byName ++ ts.map (fun t => (entryName t, normalizedDict t))) := by
  induction ts with
  | nil =>
    intro byName ordered _ _
    simp [normGo]
  | cons t ts ih =>
    intro byName ordered hv hdist
    have hvt : validEntry t = true := hv t (List.mem_cons_self _ _)
    match t with
    | .pyNone | .pyBool _ | .pyInt _ | .pyStr _ | .pyList _ =>
      simp [validEntry] at hvt
    | .pyDict kvs =>
      have hdup : byName.any (fun q =>
          pyBeq ((dictGet kvs "name").getD .pyNone) q.1) = false := by
        rw [List.any_eq_false]
        intro q hq
        have hmem : q.1 ∈ byName.map Prod.fst :=
          List.mem_map_of_mem Prod.fst hq
        have hcr := (List.pairwise_append.mp hdist).2.2 q.1 hmem
          (entryName (.pyDict kvs)) (by simp)
        simpa [entryName] using hcr
      simp only [normGo, normalizeEntry_ok byName kvs hvt hdup]
      rw [ih (byName ++ [(entryName (.pyDict kvs),
          normalizedDict (.pyDict kvs))])
        (ordered ++ [normalizedDict (.pyDict kvs)])
        (fun u hu => hv u (List.mem_cons_of_mem _ hu))
        (by simpa [List.append_assoc] using hdist)]
      simp

/-- A successful first normalization loop implies every entry was
shape-valid, the entry names are pairwise distinct and clash with no
accumulated key, and the result appends the mutated dicts in input
order. -/
theorem normGo_ok_inv (ts : List PyVal) :
    ∀ (byName : List (PyVal × PyDictL)) (ordered : List PyDictL)
      (res : List PyDictL × List (PyVal × PyDictL)),
    normGo ts byName ordered = .ok res →
    (∀ t ∈ ts, validEntry t = true) ∧
    (ts.map entryName).Pairwise (fun a b => pyBeq b a = false) ∧
    (∀ q ∈ byName, ∀ t ∈ ts, pyBeq (entryName t) q.1 = false) ∧
    res = (ordered ++ ts.map normalizedDict,
      byName ++ ts.map (fun t => (entryName t, normalizedDict t))) := by
  induction ts with
  | nil =>
    intro byName ordered res hok
    refine ⟨by simp, by simp, by simp, ?_⟩
    simp only [normGo] at hok
    cases hok
    simp
  | cons t ts ih =>
    intro byName ordered res hok
    simp only [normGo] at hok
    rcases hne : normalizeEntry byName t with e | p
    · rw [hne] at hok
      exact Except.noConfusion hok
    · rcases p with ⟨n, d⟩
      rw [hne] at hok
      obtain ⟨hvt, hdup, hp⟩ := normalizeEntry_ok_inv byName t (n, d) hne
      have hn : n = entryName t := congrArg Prod.fst hp
      have hd : d = normalizedDict t := congrArg Prod.snd hp
      subst hn hd
      obtain ⟨hv2, hpair, hcross, hres⟩ := ih _ _ _ hok
      refine ⟨?_, ?_, ?_, ?_⟩
      · intro u hu
        rcases List.mem_cons.mp hu with h1 | h1
        · rw [h1]; exact hvt
        · exact hv2 u h1
      · rw [List.map_cons, List.pairwise_cons]
        refine ⟨?_, hpair⟩
        intro b hb
        obtain ⟨u, hu, hub⟩ := List.mem_map.mp hb
        have := hcross (entryName t, normalizedDict t)
          (by simp) u hu
        rw [← hub]
        simpa using this
      · intro q hq u hu
        rcases List.mem_cons.mp hu with h1 | h1
        · rw [h1]
          rw [List.any_eq_false] at hdup
          simpa using hdup q hq
        · exact hcross q (List.mem_append_left _ hq) u h1
      · rw [hres]
        simp

/-- The second normalization loop succeeds exactly when every dependency
of every checked task matches some key of the name map. -/
theorem depCheck_ok_iff (byName : List (PyVal × PyDictL))
    (l : List (PyVal × PyDictL)) :
    depCheck byName l = .ok () ↔
    ∀ p ∈ l, ∀ d ∈ dictDeps p.2,
      byName.any (fun q => pyBeq d q.1) = true := by
  induction l with
  | nil => simp [depCheck]
  | cons hd tl ih =>
    rcases hd with ⟨n, task⟩
    simp only [depCheck]
    by_cases hc : (dictDeps task).any
        (fun d => !(byName.any (fun p => pyBeq d p.1))) = true
    · rw [if_pos hc]
      constructor
      · intro h
        exact Except.noConfusion h
      · intro h
        obtain ⟨d, hdmem, hfl⟩ := List.any_eq_true.mp hc
        have hpos := h (n, task) (List.mem_cons_self _ _) d hdmem
        rw [hpos] at hfl
        exact absurd hfl (by simp)
    · rw [if_neg hc]
      rw [ih]
      have hall : ∀ d ∈ dictDeps task,
          byName.any (fun q => pyBeq d q.1) = true := by
        intro d hdmem
        have hcf : (dictDeps task).any
            (fun d => !(byName.any (fun p => pyBeq d p.1))) = false :=
          Bool.eq_false_iff.mpr hc
        have h2 := List.any_eq_false.mp hcf d hdmem
        simpa using h2
      constructor
      · intro h p hp d hdp
        rcases List.mem_cons.mp hp with h1 | h1
        · rw [h1] at hdp
          exact hall d hdp
        · exact h p h1 d hdp
      · intro h p hp d hdp
        exact h p (List.mem_cons_of_mem _ hp) d hdp

/-- C1: for every valid task list — each entry a mapping with a truthy
name, `worktree` and `prompt` keys, a list-typed `depends_on` (if
present), a phase from the enumeration (if present), a boolean `manual`
(if present), pairwise-distinct names, and every dependency matching
some task name of the list — `normalize_tasks` succeeds and returns
every input task exactly once, in the original input order (the ordered
output is exactly the input list of mutated dicts, keyed by the input
names in order); and `normalize_tasks` errors on non-list input, while
any successful run on a list implies every entry was shape-valid (so a
non-map entry, a falsy or missing name, a missing `worktree` or
`prompt`, a non-list `depends_on`, an unknown phase or a non-boolean
`manual` are all rejected), names were pairwise distinct (duplicates
rejected), and every dependency named a task of the list (unknown
dependencies rejected). -/
theorem C1_thm :
    (∀ ts : List PyVal,
      (∀ t ∈ ts, validEntry t = true) →
      distinctNames (ts.map entryName) →
      (∀ t ∈ ts, ∀ d ∈ entryDeps t,
        (ts.map entryName).any (fun n => pyBeq d n) = true) →
      normalize_tasks (.pyList ts) =
        .ok (ts.map normalizedDict,
          ts.map (fun t => (entryName t, normalizedDict t)))) ∧
    (∀ v : PyVal, (∀ l : List PyVal, v ≠ .pyList l) →
      ∃ e, normalize_tasks v = .error e) ∧
    (∀ (ts : List PyVal) (res : List PyDictL × List (PyVal × PyDictL)),
      normalize_tasks (.pyList ts) = .ok res →
      (∀ t ∈ ts, validEntry t = true) ∧
      distinctNames (ts.map entryName) ∧
      (∀ t ∈ ts, ∀ d ∈ entryDeps t,
        (ts.map entryName).any (fun n => pyBeq d n) = true) ∧
      res = (ts.map normalizedDict,
        ts.map (fun t => (entryName t, normalizedDict t)))) := by
  refine ⟨?_, ?_, ?_⟩
  · intro ts hv hdist hdep
    have hgo := normGo_ok ts [] [] hv
      (by simpa [distinctNames] using hdist)
    have hdc : depCheck (ts.map (fun t => (entryName t, normalizedDict t)))
        (ts.map (fun t => (entryName t, normalizedDict t))) = .ok () := by
      rw [depCheck_ok_iff]
      intro p hp d hdp
      obtain ⟨t, ht, hpt⟩ := List.mem_map.mp hp
      rw [← hpt] at hdp
      rw [nd_deps t (hv t ht)] at hdp
      have hany := hdep t ht d hdp
      simpa [List.any_map, Function.comp] using hany
    simp only [normalize_tasks, hgo, List.nil_append, hdc]
  · intro v hne
    match v with
    | .pyList l => exact absurd rfl (hne l)
    | .pyNone => exact ⟨_, rfl⟩
    | .pyBool _ => exact ⟨_, rfl⟩
    | .pyInt _ => exact ⟨_, rfl⟩
    | .pyStr _ => exact ⟨_, rfl⟩
    | .pyDict _ => exact ⟨_, rfl⟩
  · intro ts res hok
    simp only [normalize_tasks] at hok
    rcases hgo : normGo ts [] [] with e | pr
    · rw [hgo] at hok
      exact Except.noConfusion hok
    · rcases pr with ⟨ordered, byName⟩
      simp only [hgo] at hok
      obtain ⟨hv, hpair, _, hpr⟩ := normGo_ok_inv ts [] []
        (ordered, byName) hgo
      have hord : ordered = ts.map normalizedDict := by
        have h1 := congrArg Prod.fst hpr
        simpa using h1
      have hby : byName =
          ts.map (fun t => (entryName t, normalizedDict t)) := by
        have h1 := congrArg Prod.snd hpr
        simpa using h1
      rcases hdc : depCheck byName byName with e | u
      · rw [hdc] at hok
        exact Except.noConfusion hok
      · cases u
        rw [hdc] at hok
        cases hok
        refine ⟨hv, by simpa [distinctNames] using hpair, ?_, ?_⟩
        · intro t ht d hd
          rw [hby] at hdc
          have hprop := (depCheck_ok_iff _ _).mp hdc
          have hone := hprop (entryName t, normalizedDict t)
            (List.mem_map_of_mem _ ht) d
            (by rw [nd_deps t (hv t ht)]; exact hd)
          simpa [List.any_map, Function.comp] using hone
        · rw [hord, hby]

theorem C1_witness :
    normalize_tasks (.pyList [.pyDict [("name", .pyStr "a"),
        ("worktree", .pyStr "w"), ("prompt", .pyStr "p")]]) =
      .ok (([.pyDict [("name", .pyStr "a"),
          ("worktree", .pyStr "w"), ("prompt", .pyStr "p")]].map
            normalizedDict),
        [.pyDict [("name", .pyStr "a"),
          ("worktree", .pyStr "w"), ("prompt", .pyStr "p")]].map
            (fun t => (entryName t, normalizedDict t))) ∧
    (∃ e, normalize_tasks (.pyBool true) = .error e) ∧
    (∀ t ∈ ([.pyDict [("name", .pyStr "a"),
        ("worktree", .pyStr "w"), ("prompt", .pyStr "p")]] : List PyVal),
      validEntry t = true) := by
  refine ⟨?_, ?_, ?_⟩
  · exact C1_thm.1 [.pyDict [("name", .pyStr "a"),
      ("worktree", .pyStr "w"), ("prompt", .pyStr "p")]]
      (by decide) (by decide) (by decide)
  · exact C1_thm.2.1 (.pyBool true) (fun l h => PyVal.noConfusion h)
  · exact (C1_thm.2.2 [.pyDict [("name", .pyStr "a"),
      ("worktree", .pyStr "w"), ("prompt", .pyStr "p")]]
      ([.pyDict [("name", .pyStr "a"),
          ("worktree", .pyStr "w"), ("prompt", .pyStr "p")]].map
            normalizedDict,
        [.pyDict [("name", .pyStr "a"),
          ("worktree", .pyStr "w"), ("prompt", .pyStr "p")]].map
            (fun t => (entryName t, normalizedDict t))) (by rfl)).1
